import Mathlib

/-!
Verification of the ThingsDB Python client connector (`thingsdb/client` and
`thingsdb/room`): a shallow embedding, in Lean, of the wire-frame codec, the
incremental TCP stream parser, the request multiplexer, the error taxonomy,
the room runtime and the reconnect loop, together with proofs of the
testable properties stated for them.

Machine integers are modelled as `Nat` with explicit `% 2 ^ w` at the points
where the Python code reduces them (`self._pid %= 0x10000`) or where
`struct` packs them into fixed-width fields.  Fallible operations return
`Option`.  The asyncio event loop is modelled by explicit interleavings of
atomic handler steps (the code's handlers contain no awaits between the
state reads and writes that matter here, so each handler is one step).
-/

namespace ThingsDB

/-! ## Frame codec (`thingsdb/client/package.py`)

`Package.st_package = struct.Struct('<IHBB')`: a little-endian header of a
`u32 length`, a `u16 pid`, a `u8 type` and a `u8 check` byte. -/

/-- `Package.st_package.size`: the 8-byte header. -/
def headerSize : Nat := 8

/-- The decoded header fields of `Package` (`package.py`, `__slots__`):
`length, pid, tp, checkbit` as produced by `st_package.unpack_from`. -/
structure Package where
  length : Nat
  pid : Nat
  tp : Nat
  checkbit : Nat
deriving DecidableEq, Repr

/-- `self.total = st_package.size + self.length` (`Package.__init__`). -/
def Package.total (p : Package) : Nat := headerSize + p.length

/-- `st_package.pack(length, pid, tp, check)`: the 8 header bytes, little
endian.  Each field is reduced to its byte positions; for in-range values
(the only ones `struct.pack` accepts without raising `struct.error`) this is
exactly the byte string Python produces. -/
def stPackagePack (length pid tp check : Nat) : List Nat :=
  [length % 256, length / 256 % 256, length / 65536 % 256, length / 16777216 % 256,
   pid % 256, pid / 256 % 256, tp % 256, check % 256]

theorem stPackagePack_length (a b c d : Nat) : (stPackagePack a b c d).length = 8 := rfl

/-- `st_package.unpack_from(barray, offset=0)` followed by the field
assignments of `Package.__init__`.  `none` models the `struct.error` raised
when fewer than 8 bytes are available (the caller `Protocol.data_received`
guards with `size < Package.st_package.size` so it never fires there). -/
def packageInit (barray : List Nat) : Option Package :=
  match barray with
  | b0 :: b1 :: b2 :: b3 :: b4 :: b5 :: b6 :: b7 :: _ =>
      some { length := b0 + 256 * b1 + 65536 * b2 + 16777216 * b3,
             pid := b4 + 256 * b5,
             tp := b6,
             checkbit := b7 }
  | _ => none

/-- The header built on the send path (`BaseProtocol.write`):
`Package.st_package.pack(len(data), self._pid, tp, tp ^ 0xff)`. -/
def writeHeader (tp pid dataLen : Nat) : List Nat :=
  stPackagePack dataLen pid tp (Nat.xor tp 0xff)

/-- Claim C8: decoding the 8-byte little-endian header produced on the send
path for type `t`, pid `p` and an `n`-byte payload yields `length = n`,
`pid = p`, `type = t`, `check = t XOR 0xFF`, and `total = 8 + n`. -/
theorem c8_header_roundtrip (t p : Nat) (payload : List Nat)
    (ht : t < 256) (hp : p < 65536) (hn : payload.length < 4294967296) :
    packageInit (writeHeader t p payload.length ++ payload) =
      some ⟨payload.length, p, t, Nat.xor t 0xff⟩ ∧
    (Package.total ⟨payload.length, p, t, Nat.xor t 0xff⟩) = 8 + payload.length := by
  constructor
  · have hx : Nat.xor t 0xff < 256 := by
      have : Nat.xor t 0xff < 2 ^ 8 := Nat.xor_lt_two_pow (by simpa using ht) (by norm_num)
      simpa using this
    simp only [writeHeader, stPackagePack, List.cons_append, List.nil_append, packageInit]
    congr 1
    have hmod : Nat.xor t 0xff % 256 = Nat.xor t 0xff := Nat.mod_eq_of_lt hx
    have htm : t % 256 = t := Nat.mod_eq_of_lt ht
    simp only [Package.mk.injEq, hmod, htm]
    refine ⟨by omega, by omega, trivial, trivial⟩
  · rfl

/-- Witness for C8 at `t = 0x22`, `p = 5`, payload `[7, 8, 9]`. -/
theorem c8_header_roundtrip_witness :
    (0x22 < 256 ∧ 5 < 65536 ∧ ([7, 8, 9] : List Nat).length < 4294967296) ∧
    (packageInit (writeHeader 0x22 5 ([7, 8, 9] : List Nat).length ++ [7, 8, 9]) =
        some ⟨([7, 8, 9] : List Nat).length, 5, 0x22, Nat.xor 0x22 0xff⟩ ∧
      (Package.total ⟨([7, 8, 9] : List Nat).length, 5, 0x22, Nat.xor 0x22 0xff⟩) =
        8 + ([7, 8, 9] : List Nat).length) :=
  ⟨⟨by decide, by decide, by decide⟩,
   c8_header_roundtrip 0x22 5 [7, 8, 9] (by decide) (by decide) (by decide)⟩

/-! ## Protocol constants (`thingsdb/client/baseprotocol.py`, `class Proto`) -/

def RES_PING : Nat := 0x10
def RES_OK : Nat := 0x11
def RES_DATA : Nat := 0x12
def RES_ERROR : Nat := 0x13

/-- The keys of `_PROTO_EVENTS` (`baseprotocol.py`). -/
def PROTO_EVENTS : List Nat := [0x00, 0x05, 0x06, 0x07, 0x08, 0x09]

/-! ## Error taxonomy (`baseprotocol.py`, `class Err` and `_ERRMAP`) -/

/-- The typed exception classes of `thingsdb/exceptions` that `_ERRMAP` maps
wire codes to, plus the `CustomError` fallback of `_ERRMAP.get(code,
CustomError)`.  `TypeError` is also used by `proto_unknown`. -/
inductive ErrKind where
  | CancelledError | OperationError | NumArgumentsError | TypeError
  | ValueError | OverflowError | ZeroDivisionError | MaxQuotaError
  | AuthError | ForbiddenError | LookupError | BadDataError
  | SyntaxError | NodeError | AssertionError | ResultTooLargeError
  | RequestTimeoutError | RequestCancelError | WriteUVError | MemoryError
  | InternalError | CustomError
deriving DecidableEq, Repr

/-- The wire codes that `_ERRMAP` has keys for (`class Err`). -/
def ERR_CODES : List Int :=
  [-64, -63, -62, -61, -60, -59, -58, -57, -56, -55, -54, -53, -52, -51, -50,
   -6, -5, -4, -3, -2, -1]

/-- `_ERRMAP.get(code, CustomError)`: the wire-code → typed-error lookup with
its `CustomError` default. -/
def errmapGet (code : Int) : ErrKind :=
  if code = -64 then .CancelledError
  else if code = -63 then .OperationError
  else if code = -62 then .NumArgumentsError
  else if code = -61 then .TypeError
  else if code = -60 then .ValueError
  else if code = -59 then .OverflowError
  else if code = -58 then .ZeroDivisionError
  else if code = -57 then .MaxQuotaError
  else if code = -56 then .AuthError
  else if code = -55 then .ForbiddenError
  else if code = -54 then .LookupError
  else if code = -53 then .BadDataError
  else if code = -52 then .SyntaxError
  else if code = -51 then .NodeError
  else if code = -50 then .AssertionError
  else if code = -6 then .ResultTooLargeError
  else if code = -5 then .RequestTimeoutError
  else if code = -4 then .RequestCancelError
  else if code = -3 then .WriteUVError
  else if code = -2 then .MemoryError
  else if code = -1 then .InternalError
  else .CustomError

/-! ## Response dispatch (`_PROTO_RESPONSE_MAP` and `proto_unknown`)

Payload values (decoded MessagePack) are an abstract type `V`; the
`d['error_code']` access performed by the `RES_ERROR` handler is abstracted
by a function `errCode : V → Int` (per the wire contract an ERROR payload is
a map containing at minimum `error_code`). -/

/-- The completion a handler puts on a request future:
`future.set_result` with `None` or data, `future.set_exception` with a typed
ThingsDB error carrying `errdata`, the `TimeoutError` set by
`BaseProtocol._timer`, or `future.cancel()` from `cancel_requests`. -/
inductive Outcome (V : Type) where
  | value (v : Option V)
  | typedErr (kind : ErrKind) (errdata : Option V)
  | timeoutErr
  | cancelled
deriving DecidableEq, Repr

/-- `_PROTO_RESPONSE_MAP.get(tp, proto_unknown)` applied to `(future,
pkg.data)`, as the outcome put on the future.  For `RES_ERROR` the handler
reads `d['error_code']`; with `pkg.data = None` that access raises before
any completion, modelled by `none`.  The final branch is `proto_unknown`,
which sets a `TypeError`. -/
def respond (errCode : V → Int) (tp : Nat) (d : Option V) : Option (Outcome V) :=
  if tp = RES_PING then some (.value none)
  else if tp = RES_OK then some (.value none)
  else if tp = RES_DATA then some (.value d)
  else if tp = RES_ERROR then
    match d with
    | some v => some (.typedErr (errmapGet (errCode v)) (some v))
    | none => none
  else some (.typedErr .TypeError none)

/-- Claim C5: the wire-error-code → typed-error mapping is total on the
published table (-64..-50 and -6..-1, each to its listed kind); every code
outside the table maps to the generic `CustomError`; and the `RES_ERROR`
handler fails the future with the kind selected by `error_code`, carrying
the full server error map (`errdata = d`). -/
theorem c5_errmap_total (V : Type) (errCode : V → Int) :
    (errmapGet (-64) = .CancelledError ∧ errmapGet (-63) = .OperationError ∧
     errmapGet (-62) = .NumArgumentsError ∧ errmapGet (-61) = .TypeError ∧
     errmapGet (-60) = .ValueError ∧ errmapGet (-59) = .OverflowError ∧
     errmapGet (-58) = .ZeroDivisionError ∧ errmapGet (-57) = .MaxQuotaError ∧
     errmapGet (-56) = .AuthError ∧ errmapGet (-55) = .ForbiddenError ∧
     errmapGet (-54) = .LookupError ∧ errmapGet (-53) = .BadDataError ∧
     errmapGet (-52) = .SyntaxError ∧ errmapGet (-51) = .NodeError ∧
     errmapGet (-50) = .AssertionError ∧ errmapGet (-6) = .ResultTooLargeError ∧
     errmapGet (-5) = .RequestTimeoutError ∧ errmapGet (-4) = .RequestCancelError ∧
     errmapGet (-3) = .WriteUVError ∧ errmapGet (-2) = .MemoryError ∧
     errmapGet (-1) = .InternalError) ∧
    (∀ c : Int, c ∉ ERR_CODES → errmapGet c = .CustomError) ∧
    (∀ v : V, respond errCode RES_ERROR (some v) =
      some (.typedErr (errmapGet (errCode v)) (some v))) := by
  refine ⟨by decide, ?_, ?_⟩
  · intro c hc
    simp only [ERR_CODES, List.mem_cons, List.not_mem_nil, or_false] at hc
    push_neg at hc
    obtain ⟨h1, h2, h3, h4, h5, h6, h7, h8, h9, h10, h11, h12, h13, h14, h15,
      h16, h17, h18, h19, h20, h21⟩ := hc
    simp only [errmapGet, if_neg h1, if_neg h2, if_neg h3, if_neg h4, if_neg h5,
      if_neg h6, if_neg h7, if_neg h8, if_neg h9, if_neg h10, if_neg h11,
      if_neg h12, if_neg h13, if_neg h14, if_neg h15, if_neg h16, if_neg h17,
      if_neg h18, if_neg h19, if_neg h20, if_neg h21]
  · intro v
    rfl

/-- Witness for C5 at the out-of-table code `-99` (and `V = Int`,
`errCode = id`). -/
theorem c5_errmap_total_witness :
    ((-99 : Int) ∉ ERR_CODES) ∧ errmapGet (-99) = .CustomError ∧
    respond (fun v : Int => v) RES_ERROR (some (-99)) =
      some (.typedErr (errmapGet (-99)) (some (-99))) :=
  ⟨by decide, (c5_errmap_total Int (fun v => v)).2.1 (-99) (by decide),
   (c5_errmap_total Int (fun v => v)).2.2 (-99)⟩

/-! ## Finite maps as association lists

`BaseProtocol._requests` and the set of scheduled timer tasks are Python
dicts / sets; they are modelled as association lists with the usual
dictionary operations (lookup, delete, assign). -/

def alLookup {A : Type} : List (Nat × A) → Nat → Option A
  | [], _ => none
  | (k', v) :: t, k => if k = k' then some v else alLookup t k

/-- `del d[k]` / `d.pop(k)`: remove the binding of `k`. -/
def alErase {A : Type} (l : List (Nat × A)) (k : Nat) : List (Nat × A) :=
  l.filter (fun p => p.1 ≠ k)

/-- `d[k] = v`: bind `k` to `v`, replacing any existing binding. -/
def alUpdate {A : Type} (l : List (Nat × A)) (k : Nat) (v : A) : List (Nat × A) :=
  alErase l k ++ [(k, v)]

theorem alErase_cons {A : Type} (a : Nat) (v : A) (t : List (Nat × A)) (k : Nat) :
    alErase ((a, v) :: t) k =
      if a = k then alErase t k else (a, v) :: alErase t k := by
  simp only [alErase, List.filter_cons]
  by_cases h : a = k <;> simp [h]

theorem alLookup_erase {A : Type} (l : List (Nat × A)) (k k' : Nat) :
    alLookup (alErase l k) k' = if k' = k then none else alLookup l k' := by
  induction l with
  | nil => by_cases h : k' = k <;> simp [alErase, alLookup, h]
  | cons p t ih =>
    obtain ⟨a, v⟩ := p
    rw [alErase_cons]
    by_cases hak : a = k
    · subst hak
      rw [if_pos rfl, ih]
      by_cases hk : k' = a
      · simp [hk]
      · simp [alLookup, hk]
    · rw [if_neg hak]
      by_cases hk : k' = a
      · subst hk
        simp [alLookup, hak]
      · simp [alLookup, hk, ih]

theorem alLookup_append {A : Type} (l₁ l₂ : List (Nat × A)) (k : Nat) :
    alLookup (l₁ ++ l₂) k = (alLookup l₁ k).or (alLookup l₂ k) := by
  induction l₁ with
  | nil => simp [alLookup]
  | cons p t ih =>
    obtain ⟨a, v⟩ := p
    simp only [List.cons_append, alLookup]
    by_cases hk : k = a <;> simp [hk, ih]

theorem alLookup_update {A : Type} (l : List (Nat × A)) (k k' : Nat) (v : A) :
    alLookup (alUpdate l k v) k' = if k' = k then some v else alLookup l k' := by
  unfold alUpdate
  rw [alLookup_append, alLookup_erase]
  by_cases hk : k' = k <;> simp [hk, alLookup]

theorem mem_alErase {A : Type} {l : List (Nat × A)} {k : Nat} {x : Nat × A}
    (h : x ∈ alErase l k) : x ∈ l := List.mem_of_mem_filter h

theorem alLookup_some_mem {A : Type} {l : List (Nat × A)} {k : Nat} {v : A}
    (h : alLookup l k = some v) : (k, v) ∈ l := by
  induction l with
  | nil => simp [alLookup] at h
  | cons p t ih =>
    obtain ⟨a, w⟩ := p
    simp only [alLookup] at h
    by_cases hk : k = a
    · subst hk
      rw [if_pos rfl] at h
      cases h
      exact List.mem_cons_self _ _
    · rw [if_neg hk] at h
      exact List.mem_cons_of_mem _ (ih h)

/-! ## The request multiplexer (`BaseProtocol` in `baseprotocol.py`)

Futures and timer tasks are named by fresh natural numbers so that the
life of each individual slot can be traced.  `completions` is the log of
every `set_result` / `set_exception` / `cancel` performed on a request
future; `cancelledFutures` records the futures on which `.cancel()` was
called (what `future.cancelled()` reports afterwards). -/

structure MuxState (V : Type) where
  /-- `self._pid`, the rolling 16-bit counter. -/
  pid : Nat
  /-- `self._requests`: pid ↦ `(future, task)`, with the future and the
  timer task named by their numeric ids (`none` = `task is None`). -/
  requests : List (Nat × Nat × Option Nat)
  /-- Timer tasks created by `asyncio.ensure_future(self._timer(...))` that
  have neither fired nor been cancelled, mapped to their target pid. -/
  activeTimers : List (Nat × Nat)
  /-- Source of fresh future names. -/
  nextFuture : Nat
  /-- Source of fresh timer-task names. -/
  nextTimer : Nat
  /-- Log of completions `(future, outcome)`. -/
  completions : List (Nat × Outcome V)
  /-- Futures on which `.cancel()` was called. -/
  cancelledFutures : List Nat
deriving DecidableEq, Repr

/-- `BaseProtocol.__init__`: `self._requests = {}`, `self._pid = 0`. -/
def muxInit (V : Type) : MuxState V :=
  ⟨0, [], [], 0, 0, [], []⟩

/-- `BaseProtocol.write(tp, data, is_bin, timeout)` (the slot bookkeeping):
`self._pid += 1; self._pid %= 0x10000`, then a timer task if `timeout` is
truthy, a fresh future, and `self._requests[self._pid] = (future, task)` —
a plain dict assignment, which replaces any existing binding.  Returns the
future's name.  (Encoding and `self._write(header + data)` are the frame
codec above.) -/
def writeStep {V : Type} (st : MuxState V) (withTimeout : Bool) : MuxState V × Nat :=
  let newPid := (st.pid + 1) % 0x10000
  let fid := st.nextFuture
  if withTimeout then
    (⟨newPid, alUpdate st.requests newPid (fid, some st.nextTimer),
      (st.nextTimer, newPid) :: st.activeTimers, fid + 1, st.nextTimer + 1,
      st.completions, st.cancelledFutures⟩, fid)
  else
    (⟨newPid, alUpdate st.requests newPid (fid, none), st.activeTimers,
      fid + 1, st.nextTimer, st.completions, st.cancelledFutures⟩, fid)

/-- A completion put on a future (a `set_result` / `set_exception` /
`cancel` call). -/
def complete {V : Type} (st : MuxState V) (fid : Nat) (o : Outcome V) : MuxState V :=
  { st with completions := st.completions ++ [(fid, o)] }

/-- `BaseProtocol._on_response(pkg)`: `self._requests.pop(pkg.pid)` (on
`KeyError` log and drop), cancel the timer task, return if the future was
already cancelled, otherwise dispatch through
`_PROTO_RESPONSE_MAP.get(pkg.tp, proto_unknown)` (the `respond` model; a
`none` there is the handler raising before completing the future). -/
def onResponseStep {V : Type} (errCode : V → Int) (st : MuxState V)
    (pid tp : Nat) (d : Option V) : MuxState V :=
  match alLookup st.requests pid with
  | none => st
  | some (fid, tidO) =>
    let st1 : MuxState V :=
      { st with
        requests := alErase st.requests pid,
        activeTimers := match tidO with
          | some tid => alErase st.activeTimers tid
          | none => st.activeTimers }
    if fid ∈ st.cancelledFutures then st1
    else
      match respond errCode tp d with
      | some o => complete st1 fid o
      | none => st1

/-- `BaseProtocol._timer(pid, timeout)` resuming after its sleep: the task
must still be scheduled (cancelling it prevents the body from running);
then `self._requests.pop(pid)` (on `KeyError` log and return) and
`future.set_exception(TimeoutError(...))`. -/
def timerFireStep {V : Type} (st : MuxState V) (tid : Nat) : MuxState V :=
  match alLookup st.activeTimers tid with
  | none => st
  | some pid =>
    match alLookup st.requests pid with
    | none => { st with activeTimers := alErase st.activeTimers tid }
    | some (fid, _) =>
        complete { st with activeTimers := alErase st.activeTimers tid,
                           requests := alErase st.requests pid } fid .timeoutErr

/-- `BaseProtocol.cancel_requests()` (run on connection loss): pop every
slot; `task.cancel()` each slot's timer; `future.cancel()` each future not
already cancelled. -/
def disconnectStep {V : Type} (st : MuxState V) : MuxState V :=
  { st with
    requests := [],
    activeTimers := st.activeTimers.filter
      (fun t => st.requests.all (fun s => s.2.2 ≠ some t.1)),
    completions := st.completions ++ st.requests.filterMap
      (fun s => if s.2.1 ∈ st.cancelledFutures then none
                else some (s.2.1, Outcome.cancelled)),
    cancelledFutures := st.cancelledFutures ++ st.requests.filterMap
      (fun s => if s.2.1 ∈ st.cancelledFutures then none else some s.2.1) }

/-- The events the event loop can deliver to a `BaseProtocol`. -/
inductive MuxEv (V : Type) where
  | write (withTimeout : Bool)
  | response (pid tp : Nat) (d : Option V)
  | timerFire (tid : Nat)
  | disconnect
deriving DecidableEq, Repr

def muxStep {V : Type} (errCode : V → Int) (st : MuxState V) : MuxEv V → MuxState V
  | .write w => (writeStep st w).1
  | .response pid tp d => onResponseStep errCode st pid tp d
  | .timerFire tid => timerFireStep st tid
  | .disconnect => disconnectStep st

def muxRun {V : Type} (errCode : V → Int) (st : MuxState V)
    (evs : List (MuxEv V)) : MuxState V :=
  evs.foldl (muxStep errCode) st

/-! ## Request-slot lifecycle invariants -/

/-- The futures of the pending slots in `self._requests`. -/
def pendingFids {V : Type} (st : MuxState V) : List Nat :=
  st.requests.map (fun s => s.2.1)

/-- The futures that have received a completion. -/
def completedFids {V : Type} (st : MuxState V) : List Nat :=
  st.completions.map Prod.fst

/-- Invariants of every reachable multiplexer state. -/
structure MuxInv {V : Type} (st : MuxState V) : Prop where
  nodupCompleted : (completedFids st).Nodup
  nodupPending : (pendingFids st).Nodup
  pendingFresh : ∀ f ∈ pendingFids st, f < st.nextFuture
  completedFresh : ∀ f ∈ completedFids st, f < st.nextFuture
  cancelledFresh : ∀ f ∈ st.cancelledFutures, f < st.nextFuture
  pendingNotCompleted : ∀ f ∈ pendingFids st, f ∉ completedFids st
  pendingNotCancelled : ∀ f ∈ pendingFids st, f ∉ st.cancelledFutures

theorem muxInv_init (V : Type) : MuxInv (muxInit V) := by
  constructor <;> simp [muxInit, pendingFids, completedFids]

theorem map_alErase_sublist {A B : Type} (l : List (Nat × A)) (k : Nat)
    (f : Nat × A → B) : ((alErase l k).map f).Sublist (l.map f) :=
  (List.filter_sublist l).map f

theorem fid_not_mem_erase {A : Type} {l : List (Nat × Nat × A)}
    (hnd : (l.map (fun s => s.2.1)).Nodup) {p fid : Nat} {t : A}
    (hl : alLookup l p = some (fid, t)) :
    fid ∉ (alErase l p).map (fun s => s.2.1) := by
  intro hmem
  rw [List.mem_map] at hmem
  obtain ⟨e, he, hfe⟩ := hmem
  have hel : e ∈ l := mem_alErase he
  have hep : e.1 ≠ p := by
    have := List.of_mem_filter he
    simpa using this
  have hpl : (p, fid, t) ∈ l := alLookup_some_mem hl
  have heq := List.inj_on_of_nodup_map hnd hel hpl (by simpa using hfe)
  exact hep (by rw [heq])

theorem filterMap_if_none {A B : Type} (l : List A) (P : A → Prop)
    [DecidablePred P] (f : A → B) (h : ∀ a ∈ l, ¬P a) :
    l.filterMap (fun a => if P a then none else some (f a)) = l.map f := by
  induction l with
  | nil => rfl
  | cons a t ih =>
    simp only [List.filterMap_cons, if_neg (h a (List.mem_cons_self a t)),
      List.map_cons]
    rw [ih fun x hx => h x (List.mem_cons_of_mem a hx)]

theorem muxInv_write {V : Type} {st : MuxState V} (h : MuxInv st) (w : Bool) :
    MuxInv (writeStep st w).1 := by
  have key : ∀ (tidO : Option Nat) (timers : List (Nat × Nat)) (nt : Nat),
      MuxInv (⟨(st.pid + 1) % 0x10000,
        alUpdate st.requests ((st.pid + 1) % 0x10000) (st.nextFuture, tidO),
        timers, st.nextFuture + 1, nt, st.completions, st.cancelledFutures⟩ :
          MuxState V) := by
    intro tidO timers nt
    have hsub : ((alErase st.requests ((st.pid + 1) % 0x10000)).map
        (fun s => s.2.1)).Sublist (pendingFids st) :=
      map_alErase_sublist _ _ _
    have hmemold : ∀ f, f ∈ (alErase st.requests ((st.pid + 1) % 0x10000)).map
        (fun s => s.2.1) → f ∈ pendingFids st := fun f hf => hsub.mem hf
    constructor
    · exact h.nodupCompleted
    · show ((alUpdate st.requests _ _).map (fun s => s.2.1)).Nodup
      unfold alUpdate
      rw [List.map_append]
      refine (h.nodupPending.sublist hsub).append (by simp) ?_
      intro f hf
      have := h.pendingFresh f (hmemold f hf)
      simp only [List.map_cons, List.map_nil, List.mem_singleton]
      omega
    · intro f hf
      show f < st.nextFuture + 1
      unfold alUpdate at hf
      rw [pendingFids] at hf
      simp only [List.map_append, List.mem_append] at hf
      rcases hf with hf | hf
      · have := h.pendingFresh f (hmemold f hf)
        omega
      · simp only [List.map_cons, List.map_nil, List.mem_singleton] at hf
        omega
    · intro f hf
      have := h.completedFresh f hf
      show f < st.nextFuture + 1
      omega
    · intro f hf
      have := h.cancelledFresh f hf
      show f < st.nextFuture + 1
      omega
    · intro f hf
      unfold alUpdate at hf
      rw [pendingFids] at hf
      simp only [List.map_append, List.mem_append] at hf
      rcases hf with hf | hf
      · exact h.pendingNotCompleted f (hmemold f hf)
      · simp only [List.map_cons, List.map_nil, List.mem_singleton] at hf
        subst hf
        intro hc
        have := h.completedFresh _ hc
        omega
    · intro f hf
      unfold alUpdate at hf
      rw [pendingFids] at hf
      simp only [List.map_append, List.mem_append] at hf
      rcases hf with hf | hf
      · exact h.pendingNotCancelled f (hmemold f hf)
      · simp only [List.map_cons, List.map_nil, List.mem_singleton] at hf
        subst hf
        intro hc
        have := h.cancelledFresh _ hc
        omega
  cases w <;> simpa [writeStep] using key _ _ _

theorem muxInv_erase_complete {V : Type} {st : MuxState V}
    (h : MuxInv st) {p fid : Nat} {tidO : Option Nat}
    (hl : alLookup st.requests p = some (fid, tidO))
    (reqs : List (Nat × Nat × Option Nat)) (hreqs : reqs = alErase st.requests p)
    (timers : List (Nat × Nat)) (o : Outcome V) :
    MuxInv { st with requests := reqs, activeTimers := timers,
                     completions := st.completions ++ [(fid, o)] } := by
  subst hreqs
  have hsub : ((alErase st.requests p).map (fun s => s.2.1)).Sublist
      (pendingFids st) := map_alErase_sublist _ _ _
  have hfidp : fid ∈ pendingFids st := by
    rw [pendingFids, List.mem_map]
    exact ⟨(p, fid, tidO), alLookup_some_mem hl, rfl⟩
  have hfidnotin : fid ∉ (alErase st.requests p).map (fun s => s.2.1) :=
    fid_not_mem_erase h.nodupPending hl
  constructor
  · show ((st.completions ++ [(fid, o)]).map Prod.fst).Nodup
    rw [List.map_append]
    refine h.nodupCompleted.append (by simp) ?_
    intro f hf
    simp only [List.map_cons, List.map_nil, List.mem_singleton]
    intro hfe
    subst hfe
    exact h.pendingNotCompleted f hfidp hf
  · exact h.nodupPending.sublist hsub
  · exact fun f hf => h.pendingFresh f (hsub.mem hf)
  · intro f hf
    show f < st.nextFuture
    rw [completedFids, List.map_append] at hf
    simp only [List.mem_append, List.map_cons, List.map_nil,
      List.mem_singleton] at hf
    rcases hf with hf | hf
    · exact h.completedFresh f hf
    · subst hf
      exact h.pendingFresh _ hfidp
  · exact h.cancelledFresh
  · intro f hf
    rw [completedFids, List.map_append]
    simp only [List.mem_append, List.map_cons, List.map_nil,
      List.mem_singleton]
    push_neg
    refine ⟨h.pendingNotCompleted f (hsub.mem hf), ?_⟩
    intro hfe
    subst hfe
    exact hfidnotin hf
  · exact fun f hf => h.pendingNotCancelled f (hsub.mem hf)

theorem muxInv_shrink {V : Type} {st : MuxState V} (h : MuxInv st)
    (reqs : List (Nat × Nat × Option Nat)) (p : Nat)
    (hreqs : reqs = alErase st.requests p) (timers : List (Nat × Nat)) :
    MuxInv { st with requests := reqs, activeTimers := timers } := by
  subst hreqs
  have hsub : ((alErase st.requests p).map (fun s => s.2.1)).Sublist
      (pendingFids st) := map_alErase_sublist _ _ _
  constructor
  · exact h.nodupCompleted
  · exact h.nodupPending.sublist hsub
  · exact fun f hf => h.pendingFresh f (hsub.mem hf)
  · exact h.completedFresh
  · exact h.cancelledFresh
  · exact fun f hf => h.pendingNotCompleted f (hsub.mem hf)
  · exact fun f hf => h.pendingNotCancelled f (hsub.mem hf)

theorem muxInv_onResponse {V : Type} (errCode : V → Int) {st : MuxState V}
    (h : MuxInv st) (pid tp : Nat) (d : Option V) :
    MuxInv (onResponseStep errCode st pid tp d) := by
  unfold onResponseStep
  cases hl : alLookup st.requests pid with
  | none => exact h
  | some s =>
    obtain ⟨fid, tidO⟩ := s
    by_cases hc : fid ∈ st.cancelledFutures
    · simp only [if_pos hc]
      exact muxInv_shrink h _ pid rfl _
    · simp only [if_neg hc]
      cases respond errCode tp d with
      | none => exact muxInv_shrink h _ pid rfl _
      | some o => exact muxInv_erase_complete h hl _ rfl _ o

theorem muxInv_timers {V : Type} {st : MuxState V} (h : MuxInv st)
    (timers : List (Nat × Nat)) : MuxInv { st with activeTimers := timers } := by
  constructor
  · exact h.nodupCompleted
  · exact h.nodupPending
  · exact h.pendingFresh
  · exact h.completedFresh
  · exact h.cancelledFresh
  · exact h.pendingNotCompleted
  · exact h.pendingNotCancelled

theorem muxInv_timerFire {V : Type} {st : MuxState V} (h : MuxInv st)
    (tid : Nat) : MuxInv (timerFireStep st tid) := by
  cases htid : alLookup st.activeTimers tid with
  | none =>
    simp only [timerFireStep, htid]
    exact h
  | some pid =>
    cases hl : alLookup st.requests pid with
    | none =>
      simp only [timerFireStep, htid, hl]
      exact muxInv_timers h (alErase st.activeTimers tid)
    | some s =>
      obtain ⟨fid, tidO⟩ := s
      simp only [timerFireStep, htid, hl]
      exact muxInv_erase_complete h hl (alErase st.requests pid) rfl
        (alErase st.activeTimers tid) .timeoutErr

theorem muxInv_disconnect {V : Type} {st : MuxState V} (h : MuxInv st) :
    MuxInv (disconnectStep st) := by
  unfold disconnectStep
  have hnone : ∀ s ∈ st.requests, ¬(s.2.1 ∈ st.cancelledFutures) := by
    intro s hs
    exact h.pendingNotCancelled s.2.1 (List.mem_map.mpr ⟨s, hs, rfl⟩)
  rw [filterMap_if_none st.requests (fun s => s.2.1 ∈ st.cancelledFutures)
        (fun s => (s.2.1, Outcome.cancelled)) hnone,
      filterMap_if_none st.requests (fun s => s.2.1 ∈ st.cancelledFutures)
        (fun s => s.2.1) hnone]
  have hmapfst : (st.requests.map
      (fun s => (s.2.1, (Outcome.cancelled : Outcome V)))).map
      Prod.fst = pendingFids st := by
    rw [List.map_map]
    rfl
  constructor
  · show ((st.completions ++ _).map Prod.fst).Nodup
    rw [List.map_append, hmapfst]
    refine h.nodupCompleted.append h.nodupPending ?_
    intro f hf
    exact fun hp => h.pendingNotCompleted f hp hf
  · show (([] : List (Nat × Nat × Option Nat)).map _).Nodup
    simp
  · intro f hf
    simp [pendingFids] at hf
  · intro f hf
    show f < st.nextFuture
    rw [completedFids, List.map_append, hmapfst] at hf
    rcases List.mem_append.mp hf with hf | hf
    · exact h.completedFresh f hf
    · exact h.pendingFresh f hf
  · intro f hf
    show f < st.nextFuture
    rcases List.mem_append.mp hf with hf | hf
    · exact h.cancelledFresh f hf
    · exact h.pendingFresh f (by simpa [pendingFids] using hf)
  · intro f hf
    simp [pendingFids] at hf
  · intro f hf
    simp [pendingFids] at hf

theorem muxInv_step {V : Type} (errCode : V → Int) {st : MuxState V}
    (h : MuxInv st) (e : MuxEv V) : MuxInv (muxStep errCode st e) := by
  cases e with
  | write w => exact muxInv_write h w
  | response pid tp d => exact muxInv_onResponse errCode h pid tp d
  | timerFire tid => exact muxInv_timerFire h tid
  | disconnect => exact muxInv_disconnect h

theorem muxInv_run {V : Type} (errCode : V → Int) {st : MuxState V}
    (h : MuxInv st) (evs : List (MuxEv V)) : MuxInv (muxRun errCode st evs) := by
  induction evs generalizing st with
  | nil => exact h
  | cons e t ih => exact ih (muxInv_step errCode h e)

theorem disconnect_cancels_pending {V : Type} {st : MuxState V} (h : MuxInv st)
    {p fid : Nat} {tidO : Option Nat}
    (hl : alLookup st.requests p = some (fid, tidO)) :
    (fid, Outcome.cancelled) ∈ (disconnectStep st).completions := by
  unfold disconnectStep
  simp only [List.mem_append]
  right
  rw [List.mem_filterMap]
  refine ⟨(p, fid, tidO), alLookup_some_mem hl, ?_⟩
  rw [if_neg]
  exact h.pendingNotCancelled fid
    (List.mem_map.mpr ⟨(p, fid, tidO), alLookup_some_mem hl, rfl⟩)

theorem response_completes_pending {V : Type} (errCode : V → Int)
    {st : MuxState V} (h : MuxInv st) {p tp : Nat} {d : Option V} {fid : Nat}
    {tidO : Option Nat} {o : Outcome V}
    (hl : alLookup st.requests p = some (fid, tidO))
    (hr : respond errCode tp d = some o) :
    (fid, o) ∈ (onResponseStep errCode st p tp d).completions := by
  have hc : fid ∉ st.cancelledFutures :=
    h.pendingNotCancelled fid
      (List.mem_map.mpr ⟨(p, fid, tidO), alLookup_some_mem hl, rfl⟩)
  simp only [onResponseStep, hl, if_neg hc, hr]
  simp [complete]

theorem timer_completes_pending {V : Type} {st : MuxState V}
    {tid p fid : Nat} {tidO : Option Nat}
    (htid : alLookup st.activeTimers tid = some p)
    (hl : alLookup st.requests p = some (fid, tidO)) :
    (fid, Outcome.timeoutErr) ∈ (timerFireStep st tid).completions := by
  simp only [timerFireStep, htid, hl]
  simp [complete]

/-- Claim C2 (amended): the safety content of the request-slot lifecycle, for
every event sequence delivered to a fresh `BaseProtocol`.  (1) No future is
ever completed twice.  (2) A pending slot's future has not yet been
completed, so (3) once a completion is recorded for a future, no slot for
it remains in `self._requests`.  (4) A slot that is still pending when the
connection is lost is cancelled by `cancel_requests`.  (5) A response for a
pending pid completes its slot with the outcome dispatched from the
response type.  (6) A live timeout timer firing on a pending pid completes
the slot with the timeout error.  The original claim's further guarantee —
that *exactly one* outcome eventually occurs for every successfully sent
request — fails when a later `write` wraps the 16-bit pid counter onto a
still-pending pid (see the counterexample): the displaced slot's future can
then never receive any outcome. -/
theorem c2_amended (V : Type) (errCode : V → Int) (evs : List (MuxEv V)) :
    (completedFids (muxRun errCode (muxInit V) evs)).Nodup ∧
    (∀ p fid tidO,
      alLookup (muxRun errCode (muxInit V) evs).requests p = some (fid, tidO) →
      fid ∉ completedFids (muxRun errCode (muxInit V) evs)) ∧
    (∀ fid, fid ∈ completedFids (muxRun errCode (muxInit V) evs) →
      ∀ p tidO,
        alLookup (muxRun errCode (muxInit V) evs).requests p ≠ some (fid, tidO)) ∧
    (∀ p fid tidO,
      alLookup (muxRun errCode (muxInit V) evs).requests p = some (fid, tidO) →
      (fid, Outcome.cancelled) ∈
        (muxStep errCode (muxRun errCode (muxInit V) evs) .disconnect).completions) ∧
    (∀ p tp d fid tidO o,
      alLookup (muxRun errCode (muxInit V) evs).requests p = some (fid, tidO) →
      respond errCode tp d = some o →
      (fid, o) ∈
        (muxStep errCode (muxRun errCode (muxInit V) evs)
          (.response p tp d)).completions) ∧
    (∀ tid p fid tidO,
      alLookup (muxRun errCode (muxInit V) evs).activeTimers tid = some p →
      alLookup (muxRun errCode (muxInit V) evs).requests p = some (fid, tidO) →
      (fid, Outcome.timeoutErr) ∈
        (muxStep errCode (muxRun errCode (muxInit V) evs)
          (.timerFire tid)).completions) := by
  have hinv : MuxInv (muxRun errCode (muxInit V) evs) :=
    muxInv_run errCode (muxInv_init V) evs
  refine ⟨hinv.nodupCompleted, ?_, ?_, ?_, ?_, ?_⟩
  · intro p fid tidO hl
    exact hinv.pendingNotCompleted fid
      (List.mem_map.mpr ⟨(p, fid, tidO), alLookup_some_mem hl, rfl⟩)
  · intro fid hfid p tidO hl
    exact hinv.pendingNotCompleted fid
      (List.mem_map.mpr ⟨(p, fid, tidO), alLookup_some_mem hl, rfl⟩) hfid
  · intro p fid tidO hl
    exact disconnect_cancels_pending hinv hl
  · intro p tp d fid tidO o hl hr
    exact response_completes_pending errCode hinv hl hr
  · intro tid p fid tidO htid hl
    exact timer_completes_pending htid hl

/-- Witness for C2 (amended) on the trace [write with a timeout, response
completing it, a second write, disconnect], with `V = Nat`: the displayed
facts of the amended claim evaluated concretely. -/
theorem c2_amended_witness :
    alLookup (muxRun (fun _ : Nat => (0 : Int)) (muxInit Nat)
        [.write true, .response 1 0x11 none, .write false]).requests 2 =
      some (1, none) ∧
    (1, Outcome.cancelled) ∈
      (muxStep (fun _ : Nat => (0 : Int))
        (muxRun (fun _ : Nat => (0 : Int)) (muxInit Nat)
          [.write true, .response 1 0x11 none, .write false])
        .disconnect).completions :=
  ⟨by decide,
   (c2_amended Nat (fun _ => 0)
      [.write true, .response 1 0x11 none, .write false]).2.2.2.1
    2 1 none (by decide)⟩

/-! ## The pid-collision trace: 65537 consecutive sends

`writes n` is the state after `n` calls to `write` (no timeout) with no
intervening responses.  The 65537th write wraps the 16-bit counter back to
pid 1, which still maps to the very first request's pending slot. -/

def writes (n : Nat) : MuxState Nat :=
  muxRun (fun _ => 0) (muxInit Nat) (List.replicate n (.write false))

theorem writes_succ (n : Nat) : writes (n + 1) = (writeStep (writes n) false).1 := by
  unfold writes muxRun
  rw [List.replicate_succ', List.foldl_append]
  rfl

theorem writes_succ' (n m : Nat) (h : n = m + 1) :
    writes n = (writeStep (writes m) false).1 := by
  rw [h]
  exact writes_succ m

theorem writeStep_false {V : Type} (st : MuxState V) :
    (writeStep st false).1 =
      ⟨(st.pid + 1) % 0x10000,
       alUpdate st.requests ((st.pid + 1) % 0x10000) (st.nextFuture, none),
       st.activeTimers, st.nextFuture + 1, st.nextTimer,
       st.completions, st.cancelledFutures⟩ := rfl

theorem alErase_eq_self {A : Type} {l : List (Nat × A)} {k : Nat}
    (h : ∀ e ∈ l, e.1 ≠ k) : alErase l k = l := by
  unfold alErase
  rw [List.filter_eq_self]
  intro a ha
  simpa using h a ha

/-- The request map produced by `n ≤ 65535` consecutive writes: pid `i + 1`
holds future `i`, for `i < n`. -/
def rangeRequests (n : Nat) : List (Nat × Nat × Option Nat) :=
  (List.range n).map (fun i => (i + 1, i, none))

theorem writes_spec (n : Nat) (hn : n ≤ 65535) :
    (writes n).pid = n ∧ (writes n).requests = rangeRequests n ∧
    (writes n).nextFuture = n ∧ (writes n).completions = [] ∧
    (writes n).cancelledFutures = [] := by
  induction n with
  | zero => exact ⟨rfl, rfl, rfl, rfl, rfl⟩
  | succ m ih =>
    obtain ⟨hpid, hreq, hnf, hcomp, hcanc⟩ := ih (by omega)
    rw [writes_succ, writeStep_false]
    have hmod : ((writes m).pid + 1) % 0x10000 = m + 1 := by
      rw [hpid]
      exact Nat.mod_eq_of_lt (by omega)
    refine ⟨hmod, ?_, by simpa using hnf, hcomp, hcanc⟩
    show alUpdate (writes m).requests (((writes m).pid + 1) % 0x10000)
      ((writes m).nextFuture, none) = rangeRequests (m + 1)
    rw [hmod, hreq, hnf]
    unfold alUpdate
    rw [alErase_eq_self (by
      intro e he
      unfold rangeRequests at he
      rw [List.mem_map] at he
      obtain ⟨i, hi, hie⟩ := he
      rw [List.mem_range] at hi
      subst hie
      simp only
      omega)]
    unfold rangeRequests
    rw [List.range_succ, List.map_append]
    rfl

theorem alLookup_rangeRequests (n k : Nat) :
    alLookup (rangeRequests n) k =
      if 1 ≤ k ∧ k ≤ n then some (k - 1, none) else none := by
  induction n with
  | zero =>
    rw [if_neg (by omega)]
    rfl
  | succ m ih =>
    unfold rangeRequests
    rw [List.range_succ, List.map_append, alLookup_append]
    unfold rangeRequests at ih
    rw [ih]
    by_cases h1 : 1 ≤ k ∧ k ≤ m
    · rw [if_pos h1, if_pos (by omega)]
      rfl
    · rw [if_neg h1]
      simp only [List.map_cons, List.map_nil, Option.none_or]
      by_cases h2 : k = m + 1
      · subst h2
        rw [if_pos (by omega)]
        simp [alLookup]
      · rw [if_neg (by omega)]
        simp [alLookup, h2]

theorem writeStep_false_pid {V : Type} (st : MuxState V) :
    ((writeStep st false).1).pid = (st.pid + 1) % 0x10000 := rfl

theorem writeStep_false_requests {V : Type} (st : MuxState V) :
    ((writeStep st false).1).requests =
      alUpdate st.requests ((st.pid + 1) % 0x10000) (st.nextFuture, none) := rfl

theorem writeStep_false_nextFuture {V : Type} (st : MuxState V) :
    ((writeStep st false).1).nextFuture = st.nextFuture + 1 := rfl

theorem writeStep_false_completions {V : Type} (st : MuxState V) :
    ((writeStep st false).1).completions = st.completions := rfl

theorem writeStep_false_cancelled {V : Type} (st : MuxState V) :
    ((writeStep st false).1).cancelledFutures = st.cancelledFutures := rfl

theorem writes65536_state :
    (writes 65536).pid = 0 ∧
    (writes 65536).requests = rangeRequests 65535 ++ [(0, 65535, none)] ∧
    (writes 65536).nextFuture = 65536 ∧
    (writes 65536).completions = [] ∧
    (writes 65536).cancelledFutures = [] := by
  obtain ⟨hpid, hreq, hnf, hcomp, hcanc⟩ := writes_spec 65535 (by omega)
  have e1 : writes 65536 = (writeStep (writes 65535) false).1 :=
    writes_succ' 65536 65535 (by norm_num)
  refine ⟨?_, ?_, ?_, ?_, ?_⟩
  · rw [e1, writeStep_false_pid, hpid]
  · rw [e1, writeStep_false_requests, hpid, hreq, hnf]
    rw [show ((65535 : Nat) + 1) % 0x10000 = 0 from rfl]
    unfold alUpdate
    rw [alErase_eq_self (by
      intro e he
      unfold rangeRequests at he
      rw [List.mem_map] at he
      obtain ⟨i, hi, hie⟩ := he
      subst hie
      simp only
      omega)]
  · rw [e1, writeStep_false_nextFuture, hnf]
  · rw [e1, writeStep_false_completions, hcomp]
  · rw [e1, writeStep_false_cancelled, hcanc]

theorem writes65537_state :
    (writes 65537).pid = 1 ∧
    (writes 65537).requests =
      alErase (rangeRequests 65535 ++ [(0, 65535, none)]) 1 ++
        [(1, 65536, none)] ∧
    (writes 65537).nextFuture = 65537 ∧
    (writes 65537).completions = [] ∧
    (writes 65537).cancelledFutures = [] := by
  obtain ⟨hpid, hreq, hnf, hcomp, hcanc⟩ := writes65536_state
  have e1 : writes 65537 = (writeStep (writes 65536) false).1 :=
    writes_succ' 65537 65536 (by norm_num)
  refine ⟨?_, ?_, ?_, ?_, ?_⟩
  · rw [e1, writeStep_false_pid, hpid]
  · rw [e1, writeStep_false_requests, hpid, hreq, hnf]
    rw [show ((0 : Nat) + 1) % 0x10000 = 1 from rfl]
    rfl
  · rw [e1, writeStep_false_nextFuture, hnf]
  · rw [e1, writeStep_false_completions, hcomp]
  · rw [e1, writeStep_false_cancelled, hcanc]

/-- Claim C3 (amended): `write` allocates `pid = (previous counter + 1) mod
2^16` — the counter is incremented (and reduced) before assignment — and
then *always* registers the new slot under that pid with a plain dict
assignment: when the pid still maps to a pending slot the old binding is
silently replaced (its future is orphaned), every other slot is untouched,
and no internal error is raised — no completion of any kind is recorded by
the send. -/
theorem c3_amended (V : Type) (st : MuxState V) (w : Bool) :
    ((writeStep st w).1).pid = (st.pid + 1) % 0x10000 ∧
    alLookup ((writeStep st w).1).requests ((st.pid + 1) % 0x10000) =
      some (st.nextFuture, if w then some st.nextTimer else none) ∧
    (∀ k, k ≠ (st.pid + 1) % 0x10000 →
      alLookup ((writeStep st w).1).requests k = alLookup st.requests k) ∧
    ((writeStep st w).1).completions = st.completions := by
  cases w with
  | false =>
    refine ⟨rfl, ?_, ?_, rfl⟩
    · show alLookup (alUpdate st.requests ((st.pid + 1) % 0x10000)
        (st.nextFuture, none)) ((st.pid + 1) % 0x10000) = _
      rw [alLookup_update, if_pos rfl]
      rfl
    · intro k hk
      show alLookup (alUpdate st.requests ((st.pid + 1) % 0x10000)
        (st.nextFuture, none)) k = _
      rw [alLookup_update, if_neg hk]
  | true =>
    refine ⟨rfl, ?_, ?_, rfl⟩
    · show alLookup (alUpdate st.requests ((st.pid + 1) % 0x10000)
        (st.nextFuture, some st.nextTimer)) ((st.pid + 1) % 0x10000) = _
      rw [alLookup_update, if_pos rfl]
      rfl
    · intro k hk
      show alLookup (alUpdate st.requests ((st.pid + 1) % 0x10000)
        (st.nextFuture, some st.nextTimer)) k = _
      rw [alLookup_update, if_neg hk]

/-- Witness for C3 (amended) at a one-write state. -/
theorem c3_amended_witness :
    ((writeStep (muxInit Nat) false).1).pid = (0 + 1) % 0x10000 ∧
    alLookup ((writeStep (muxInit Nat) false).1).requests ((0 + 1) % 0x10000) =
      some (0, if false then some 0 else none) ∧
    (∀ k, k ≠ (0 + 1) % 0x10000 →
      alLookup ((writeStep (muxInit Nat) false).1).requests k =
        alLookup (muxInit Nat).requests k) ∧
    ((writeStep (muxInit Nat) false).1).completions = (muxInit Nat).completions :=
  c3_amended Nat (muxInit Nat) false

/-- Claim C3 counterexample: after 65536 sends, pid 1 still maps to the very
first request's pending slot (future 0); the 65537th `write` allocates the
colliding pid 1 and, instead of rejecting the send with an internal error,
registers a second slot under pid 1 (future 65536), recording no error and
no completion. -/
theorem c3_counterexample :
    alLookup (writes 65536).requests 1 = some (0, none) ∧
    (writes 65537).pid = 1 ∧
    alLookup (writes 65537).requests 1 = some (65536, none) ∧
    (writes 65537).completions = [] := by
  obtain ⟨hpid6, hreq6, hnf6, hcomp6, hcanc6⟩ := writes65536_state
  obtain ⟨hpid7, hreq7, hnf7, hcomp7, hcanc7⟩ := writes65537_state
  refine ⟨?_, hpid7, ?_, hcomp7⟩
  · rw [hreq6, alLookup_append, alLookup_rangeRequests, if_pos (by omega)]
    rfl
  · rw [hreq7, alLookup_append, alLookup_erase, if_pos rfl]
    rfl

/-! ## The orphaned future of a displaced slot can never complete -/

/-- A future that is out of the pending map, was never completed, and whose
name can never be handed out again. -/
def deadFuture {V : Type} (st : MuxState V) (fid : Nat) : Prop :=
  fid ∉ pendingFids st ∧ fid ∉ completedFids st ∧ fid < st.nextFuture

theorem deadFuture_step {V : Type} (errCode : V → Int) {st : MuxState V}
    {fid : Nat} (h : deadFuture st fid) (e : MuxEv V) :
    deadFuture (muxStep errCode st e) fid := by
  obtain ⟨hp, hc, hn⟩ := h
  cases e with
  | write w =>
    have key : ∀ (tidO : Option Nat) (timers : List (Nat × Nat)) (nt : Nat),
        deadFuture (⟨(st.pid + 1) % 0x10000,
          alUpdate st.requests ((st.pid + 1) % 0x10000) (st.nextFuture, tidO),
          timers, st.nextFuture + 1, nt, st.completions,
          st.cancelledFutures⟩ : MuxState V) fid := by
      intro tidO timers nt
      refine ⟨?_, hc, ?_⟩
      · intro hmem
        unfold alUpdate at hmem
        rw [pendingFids] at hmem
        simp only [List.map_append, List.mem_append, List.map_cons,
          List.map_nil, List.mem_singleton] at hmem
        rcases hmem with hmem | hmem
        · exact hp ((map_alErase_sublist _ _ _).mem hmem)
        · omega
      · show fid < st.nextFuture + 1
        omega
    cases w <;> simpa [muxStep, writeStep] using key _ _ _
  | response pid tp d =>
    show deadFuture (onResponseStep errCode st pid tp d) fid
    unfold onResponseStep
    cases hl : alLookup st.requests pid with
    | none => exact ⟨hp, hc, hn⟩
    | some sl =>
      obtain ⟨fid', tidO⟩ := sl
      have hfid' : fid' ∈ pendingFids st :=
        List.mem_map.mpr ⟨(pid, fid', tidO), alLookup_some_mem hl, rfl⟩
      have hne : fid' ≠ fid := fun he => hp (he ▸ hfid')
      have hsub := map_alErase_sublist st.requests pid
        (fun s : Nat × Nat × Option Nat => s.2.1)
      by_cases hcc : fid' ∈ st.cancelledFutures
      · simp only [if_pos hcc]
        exact ⟨fun hmem => hp (hsub.mem hmem), hc, hn⟩
      · simp only [if_neg hcc]
        cases respond errCode tp d with
        | none => exact ⟨fun hmem => hp (hsub.mem hmem), hc, hn⟩
        | some o =>
          refine ⟨fun hmem => hp (hsub.mem hmem), ?_, hn⟩
          intro hmem
          have hmem' : fid ∈ (st.completions ++ [(fid', o)]).map Prod.fst := hmem
          rw [List.map_append, List.mem_append] at hmem'
          rcases hmem' with hmem' | hmem'
          · exact hc hmem'
          · simp only [List.map_cons, List.map_nil, List.mem_singleton] at hmem'
            exact hne hmem'.symm
  | timerFire tid =>
    show deadFuture (timerFireStep st tid) fid
    cases htid : alLookup st.activeTimers tid with
    | none =>
      simp only [timerFireStep, htid]
      exact ⟨hp, hc, hn⟩
    | some pid =>
      cases hl : alLookup st.requests pid with
      | none =>
        simp only [timerFireStep, htid, hl]
        exact ⟨hp, hc, hn⟩
      | some sl =>
        obtain ⟨fid', tidO⟩ := sl
        simp only [timerFireStep, htid, hl]
        have hfid' : fid' ∈ pendingFids st :=
          List.mem_map.mpr ⟨(pid, fid', tidO), alLookup_some_mem hl, rfl⟩
        have hne : fid' ≠ fid := fun he => hp (he ▸ hfid')
        have hsub := map_alErase_sublist st.requests pid
          (fun s : Nat × Nat × Option Nat => s.2.1)
        refine ⟨fun hmem => hp (hsub.mem hmem), ?_, hn⟩
        intro hmem
        have hmem' : fid ∈
            (st.completions ++ [(fid', Outcome.timeoutErr)]).map Prod.fst := hmem
        rw [List.map_append, List.mem_append] at hmem'
        rcases hmem' with hmem' | hmem'
        · exact hc hmem'
        · simp only [List.map_cons, List.map_nil, List.mem_singleton] at hmem'
          exact hne hmem'.symm
  | disconnect =>
    show deadFuture (disconnectStep st) fid
    unfold disconnectStep
    refine ⟨by simp [pendingFids], ?_, hn⟩
    intro hmem
    have hmem' : fid ∈ (st.completions ++ st.requests.filterMap
        (fun s : Nat × Nat × Option Nat =>
          if s.2.1 ∈ st.cancelledFutures then none
          else some (s.2.1, Outcome.cancelled))).map Prod.fst := hmem
    rw [List.map_append, List.mem_append] at hmem'
    rcases hmem' with hmem' | hmem'
    · exact hc hmem'
    · rw [List.mem_map] at hmem'
      obtain ⟨e, he, hfe⟩ := hmem'
      rw [List.mem_filterMap] at he
      obtain ⟨a, ha, hae⟩ := he
      by_cases hca : a.2.1 ∈ st.cancelledFutures
      · rw [if_pos hca] at hae
        cases hae
      · rw [if_neg hca] at hae
        cases hae
        exact hp (hfe ▸ List.mem_map.mpr ⟨a, ha, rfl⟩)

theorem deadFuture_run {V : Type} (errCode : V → Int) {st : MuxState V}
    {fid : Nat} (h : deadFuture st fid) (evs : List (MuxEv V)) :
    deadFuture (muxRun errCode st evs) fid := by
  induction evs generalizing st with
  | nil => exact h
  | cons e t ih => exact ih (deadFuture_step errCode h e)

/-- No continuation of the event loop can ever put a completion on the
future. -/
def neverCompleted (st : MuxState Nat) (fid : Nat) : Prop :=
  ∀ evs : List (MuxEv Nat), fid ∉ completedFids (muxRun (fun _ => 0) st evs)

theorem neverCompleted_of_dead {st : MuxState Nat} {fid : Nat}
    (h : deadFuture st fid) : neverCompleted st fid :=
  fun evs => (deadFuture_run (fun _ => 0) h evs).2.1

/-- Claim C2 counterexample: the very first send registered the slot
`pid 1 ↦ future 0`.  After 65537 consecutive sends the 16-bit counter has
wrapped and the last write has displaced that still-pending slot (see
`c3_counterexample`): future 0 is out of the pending map, was never
completed, and no continuation of the event loop can ever complete it — so
for that successfully sent request *none* of the four outcomes (value,
typed error, timeout error, cancellation on disconnect) ever occurs,
refuting "exactly one". -/
theorem c2_counterexample :
    alLookup (writes 1).requests 1 = some (0, none) ∧
    neverCompleted (writes 65537) 0 := by
  constructor
  · decide
  · apply neverCompleted_of_dead
    obtain ⟨hpid7, hreq7, hnf7, hcomp7, hcanc7⟩ := writes65537_state
    refine ⟨?_, ?_, ?_⟩
    · intro hmem
      rw [pendingFids, hreq7, List.map_append, List.mem_append] at hmem
      rcases hmem with hmem | hmem
      · rw [List.mem_map] at hmem
        obtain ⟨e, he, hfe⟩ := hmem
        have hel : e ∈ rangeRequests 65535 ++ [(0, 65535, none)] :=
          mem_alErase he
        have hkey : e.1 ≠ 1 := by simpa using List.of_mem_filter he
        rw [List.mem_append] at hel
        rcases hel with hel | hel
        · unfold rangeRequests at hel
          rw [List.mem_map] at hel
          obtain ⟨i, hi, hie⟩ := hel
          subst hie
          simp only at hfe hkey
          omega
        · simp only [List.mem_singleton] at hel
          subst hel
          simp at hfe
      · simp only [List.map_cons, List.map_nil, List.mem_singleton] at hmem
        omega
    · rw [completedFids, hcomp7]
      simp
    · rw [hnf7]
      omega

/-! ## Inbound dispatch (`BaseProtocol._handle_package`) -/

/-- A `Package` whose `extract_data_from` has run: header fields plus the
decoded MessagePack payload (`self.data`). -/
structure PackageData (V : Type) where
  header : Package
  data : Option V
deriving DecidableEq, Repr

/-- `BaseProtocol._handle_package(pkg)`: `pkg.tp in _PROTO_RESPONSE_MAP`
routes to `_on_response`; `pkg.tp in _PROTO_EVENTS` routes to
`self._on_event` (recorded here in an event list); anything else is logged
as unsupported.  Nothing on this path reads `pkg.checkbit`. -/
def handlePackage {V : Type} (errCode : V → Int)
    (st : MuxState V × List (PackageData V)) (pkg : PackageData V) :
    MuxState V × List (PackageData V) :=
  if pkg.header.tp = RES_PING ∨ pkg.header.tp = RES_OK ∨
      pkg.header.tp = RES_DATA ∨ pkg.header.tp = RES_ERROR then
    (onResponseStep errCode st.1 pkg.header.pid pkg.header.tp pkg.data, st.2)
  else if pkg.header.tp ∈ PROTO_EVENTS then
    (st.1, st.2 ++ [pkg])
  else st

/-- Claim C1 (amended): the check byte is decoded into the package but never
validated.  `_handle_package` and the `_on_response` path it calls read only
the type, the pid and the decoded payload, so two inbound packages that
differ only in their check byte are processed identically: same multiplexer
effect (the same futures complete with the same outcomes) and the same
forwarded events up to the ignored check byte. -/
theorem c1_amended (V : Type) (errCode : V → Int)
    (st : MuxState V × List (PackageData V)) (h : Package) (d : Option V)
    (c c' : Nat) :
    (handlePackage errCode st ⟨{ h with checkbit := c }, d⟩).1 =
      (handlePackage errCode st ⟨{ h with checkbit := c' }, d⟩).1 ∧
    (handlePackage errCode st ⟨{ h with checkbit := c }, d⟩).2.map
        (fun p => (p.header.tp, p.header.pid, p.header.length, p.data)) =
      (handlePackage errCode st ⟨{ h with checkbit := c' }, d⟩).2.map
        (fun p => (p.header.tp, p.header.pid, p.header.length, p.data)) := by
  unfold handlePackage
  dsimp only
  split_ifs <;> simp

/-! ## The incremental TCP stream parser (`Protocol.data_received`)

`self._buffered_data` and `self.package` are the parser state; `msgpack.
unpackb` is abstracted by `munpack : List Nat → Option V` (`none` = raise).
-/

structure ParseState (V : Type) where
  buffer : List Nat
  package : Option Package
deriving DecidableEq, Repr

/-- The slice `barray[st_package.size : total]` taken by
`Package.extract_data_from`. -/
def extractPayload (h : Package) (b : List Nat) : List Nat :=
  (b.drop headerSize).take h.length

/-- `Package.extract_data_from`: `msgpack.unpackb(...) if self.length else
None`; the outer `none` is the raised unpack exception. -/
def extractData {V : Type} (munpack : List Nat → Option V) (h : Package)
    (payload : List Nat) : Option (Option V) :=
  if h.length = 0 then some none
  else
    match munpack payload with
    | some v => some (some v)
    | none => none

/-- The `while self._buffered_data:` loop of `Protocol.data_received`:
wait while fewer than 8 bytes are buffered; parse the header once 8 bytes
are present (kept in `self.package` across calls); wait while fewer than
`total` bytes are buffered; then extract (on decode failure log and clear
the whole buffer to resynchronize), hand the package over (collected in the
returned list), drop the first `total` bytes, and repeat. -/
def runLoop {V : Type} (munpack : List Nat → Option V) (b : List Nat)
    (pk : Option Package) : List (PackageData V) × ParseState V :=
  if hb : b = [] then ([], ⟨b, pk⟩)
  else
    match pk.orElse (fun _ => packageInit b) with
    | none => ([], ⟨b, none⟩)
    | some h =>
      if b.length < h.total then ([], ⟨b, some h⟩)
      else
        match extractData munpack h (extractPayload h b) with
        | none => ([], ⟨[], none⟩)
        | some d =>
          let rest := runLoop munpack (b.drop h.total) none
          (⟨h, d⟩ :: rest.1, rest.2)
termination_by b.length
decreasing_by
  simp only [List.length_drop]
  have hb' : 0 < b.length := List.length_pos.mpr hb
  have ht : 0 < h.total := by
    simp [Package.total, headerSize]
  omega

/-- `Protocol.data_received(data)`: extend the buffer, run the loop. -/
def dataReceived {V : Type} (munpack : List Nat → Option V)
    (st : ParseState V) (data : List Nat) :
    List (PackageData V) × ParseState V :=
  runLoop munpack (st.buffer ++ data) st.package

/-- `Protocol.__init__`: empty buffer, `self.package = None`. -/
def parseInit (V : Type) : ParseState V := ⟨[], none⟩

/-- Deliver a sequence of chunks to `data_received`, collecting every
package handed to `_handle_package` in order. -/
def processChunks {V : Type} (munpack : List Nat → Option V)
    (st : ParseState V) : List (List Nat) → List (PackageData V) × ParseState V
  | [] => ([], st)
  | c :: cs =>
    let r := dataReceived munpack st c
    let rr := processChunks munpack r.2 cs
    (r.1 ++ rr.1, rr.2)

/-! ## Well-formed frames and chunking invariance -/

/-- A wire frame: an 8-byte header (encoding the payload length) followed by
the payload. -/
structure Frame where
  pid : Nat
  tp : Nat
  check : Nat
  payload : List Nat
deriving DecidableEq, Repr

/-- Well-formed: header fields in range (so the header round-trips) and a
payload that `msgpack.unpackb` decodes (it is not consulted for an empty
payload). -/
def Frame.WF {V : Type} (munpack : List Nat → Option V) (f : Frame) : Prop :=
  f.pid < 65536 ∧ f.tp < 256 ∧ f.check < 256 ∧
    f.payload.length < 4294967296 ∧
    (f.payload ≠ [] → (munpack f.payload).isSome = true)

instance {V : Type} (munpack : List Nat → Option V) (f : Frame) :
    Decidable (f.WF munpack) := by
  unfold Frame.WF
  infer_instance

def Frame.header (f : Frame) : Package :=
  ⟨f.payload.length, f.pid, f.tp, f.check⟩

def Frame.bytes (f : Frame) : List Nat :=
  stPackagePack f.payload.length f.pid f.tp f.check ++ f.payload

/-- The package this frame turns into when extracted. -/
def Frame.out {V : Type} (munpack : List Nat → Option V) (f : Frame) :
    PackageData V :=
  ⟨f.header, if f.payload = [] then none else munpack f.payload⟩

def framesBytes (fs : List Frame) : List Nat := (fs.map Frame.bytes).flatten

theorem Frame.bytes_length (f : Frame) :
    (Frame.bytes f).length = 8 + f.payload.length := by
  simp [Frame.bytes, stPackagePack]
  omega

theorem Frame.header_total (f : Frame) :
    (Frame.header f).total = (Frame.bytes f).length := by
  rw [Frame.bytes_length]
  rfl

theorem packageInit_eq_none {b : List Nat} (h : b.length < 8) :
    packageInit b = none := by
  rcases b with _ | ⟨b0, b⟩
  · rfl
  rcases b with _ | ⟨b1, b⟩
  · rfl
  rcases b with _ | ⟨b2, b⟩
  · rfl
  rcases b with _ | ⟨b3, b⟩
  · rfl
  rcases b with _ | ⟨b4, b⟩
  · rfl
  rcases b with _ | ⟨b5, b⟩
  · rfl
  rcases b with _ | ⟨b6, b⟩
  · rfl
  rcases b with _ | ⟨b7, b⟩
  · rfl
  simp at h
  omega

theorem packageInit_headerOnly {b : List Nat} (h8 : 8 ≤ b.length) (r : List Nat) :
    packageInit (b ++ r) = packageInit b := by
  rcases b with _ | ⟨b0, b⟩
  · simp at h8
  rcases b with _ | ⟨b1, b⟩
  · simp at h8
  rcases b with _ | ⟨b2, b⟩
  · simp at h8
  rcases b with _ | ⟨b3, b⟩
  · simp at h8
  rcases b with _ | ⟨b4, b⟩
  · simp at h8
  rcases b with _ | ⟨b5, b⟩
  · simp at h8
  rcases b with _ | ⟨b6, b⟩
  · simp at h8
  rcases b with _ | ⟨b7, b⟩
  · simp at h8
  rfl

/-- Decoding the header of a well-formed frame (with anything after it in
the buffer) gives back its fields. -/
theorem packageInit_frame {V : Type} {munpack : List Nat → Option V}
    {f : Frame} (hwf : f.WF munpack) (r : List Nat) :
    packageInit (Frame.bytes f ++ r) = some (Frame.header f) := by
  obtain ⟨hp, ht, hc, hl, _⟩ := hwf
  unfold Frame.bytes
  simp only [stPackagePack, List.cons_append, List.nil_append, packageInit]
  unfold Frame.header
  congr 1
  have htm : f.tp % 256 = f.tp := Nat.mod_eq_of_lt ht
  have hcm : f.check % 256 = f.check := Nat.mod_eq_of_lt hc
  simp only [Package.mk.injEq, htm, hcm]
  refine ⟨by omega, by omega, trivial, trivial⟩

theorem runLoop_nil {V : Type} (munpack : List Nat → Option V)
    (pk : Option Package) : runLoop munpack [] pk = ([], ⟨[], pk⟩) := by
  rw [runLoop]
  simp

/-- One complete, well-formed frame at the head of the buffer is consumed
whole: its package is handed over and exactly `total` bytes are dropped. -/
theorem runLoop_frame {V : Type} {munpack : List Nat → Option V} {f : Frame}
    (hwf : f.WF munpack) (r : List Nat) :
    runLoop munpack (Frame.bytes f ++ r) none =
      ((f.out munpack) :: (runLoop munpack r none).1,
        (runLoop munpack r none).2) := by
  have hlenb : (Frame.bytes f).length = 8 + f.payload.length :=
    Frame.bytes_length f
  have hne : Frame.bytes f ++ r ≠ [] := by
    intro h0
    have := congrArg List.length h0
    simp only [List.length_append, hlenb, List.length_nil] at this
    omega
  have hpi : packageInit (Frame.bytes f ++ r) = some (Frame.header f) :=
    packageInit_frame hwf r
  have htot : (Frame.header f).total = 8 + f.payload.length := rfl
  have hnl : ¬(Frame.bytes f ++ r).length < (Frame.header f).total := by
    simp only [List.length_append, hlenb, htot]
    omega
  have hpay : extractPayload (Frame.header f) (Frame.bytes f ++ r) =
      f.payload := by
    unfold extractPayload Frame.bytes
    rw [List.append_assoc, List.drop_left'
      (show (stPackagePack f.payload.length f.pid f.tp f.check).length =
        headerSize from rfl)]
    exact List.take_left' rfl
  have hdrop : (Frame.bytes f ++ r).drop (Frame.header f).total = r := by
    rw [htot, List.drop_left' hlenb]
  have hex : extractData munpack (Frame.header f) f.payload =
      some ((f.out munpack).data) := by
    unfold extractData Frame.out
    by_cases hemp : f.payload = []
    · rw [if_pos (by simp [Frame.header, hemp]), if_pos hemp]
    · rw [if_neg (by simp [Frame.header, hemp]), if_neg hemp]
      obtain ⟨-, -, -, -, hsome⟩ := hwf
      obtain ⟨v, hv⟩ := Option.isSome_iff_exists.mp (hsome hemp)
      rw [hv]
  rw [runLoop, dif_neg hne]
  simp only [Option.orElse, hpi, hnl, if_false, hpay, hex, hdrop]
  rfl

/-- Consistency of the carried `self.package` with the buffer: when set, it
is exactly the header parsed from the (still buffered) first 8 bytes. -/
def pkgOk (q : Option Package) (b : List Nat) : Prop :=
  ∀ h, q = some h → packageInit b = some h

theorem pkgOk_append {q : Option Package} {b : List Nat} (hq : pkgOk q b)
    (c : List Nat) : pkgOk q (b ++ c) := by
  intro h h0
  have hpi := hq h h0
  have h8 : 8 ≤ b.length := by
    by_contra h8
    push_neg at h8
    rw [packageInit_eq_none h8] at hpi
    cases hpi
  rw [packageInit_headerOnly h8 c, hpi]

/-- The carried `self.package` is redundant: on a consistent state the loop
behaves as if it re-parsed the header from the buffer. -/
theorem runLoop_pkgOk {V : Type} (munpack : List Nat → Option V)
    (b : List Nat) (q : Option Package) (hq : pkgOk q b) :
    runLoop munpack b q = runLoop munpack b none := by
  cases q with
  | none => rfl
  | some h =>
    have hpi : packageInit b = some h := hq h rfl
    have hne : b ≠ [] := by
      intro h0
      subst h0
      cases hpi
    rw [runLoop, runLoop, dif_neg hne, dif_neg hne]
    simp only [Option.orElse, hpi]

/-- `b` sits strictly inside the remaining frame stream: either nothing is
left, or `b` is a strict prefix of the next frame's bytes. -/
def midFrame (b : List Nat) (gs : List Frame) : Prop :=
  (gs = [] ∧ b = []) ∨
  ∃ g gs', gs = g :: gs' ∧ b.length < (Frame.bytes g).length ∧
    ∃ u, b ++ u = Frame.bytes g

theorem framesBytes_cons (g : Frame) (gs : List Frame) :
    framesBytes (g :: gs) = Frame.bytes g ++ framesBytes gs := by
  simp [framesBytes]

/-- A strict prefix of a well-formed frame makes the loop wait without
emitting anything or touching the buffer, leaving a consistent carried
header. -/
theorem runLoop_stuck {V : Type} {munpack : List Nat → Option V} {f : Frame}
    (hwf : f.WF munpack) {b u : List Nat} (hu : b ++ u = Frame.bytes f)
    (hlt : b.length < (Frame.bytes f).length) :
    (runLoop munpack b none).1 = [] ∧
    (runLoop munpack b none).2.buffer = b ∧
    pkgOk (runLoop munpack b none).2.package b := by
  by_cases hb : b = []
  · subst hb
    rw [runLoop_nil]
    exact ⟨rfl, rfl, fun h h0 => Option.noConfusion h0⟩
  · cases hpi : packageInit b with
    | none =>
      rw [runLoop, dif_neg hb]
      simp only [Option.orElse, hpi]
      refine ⟨by first | rfl | trivial, by first | rfl | trivial,
        fun h h0 => Option.noConfusion h0⟩
    | some hdr =>
      have h8 : 8 ≤ b.length := by
        by_contra h8
        push_neg at h8
        rw [packageInit_eq_none h8] at hpi
        cases hpi
      have hfb : packageInit (Frame.bytes f) = some (Frame.header f) := by
        have := packageInit_frame hwf ([] : List Nat)
        simpa using this
      have hdrEq : hdr = Frame.header f := by
        have h1 : packageInit (b ++ u) = packageInit b := packageInit_headerOnly h8 u
        rw [hu, hfb, hpi] at h1
        injection h1 with h1
        exact h1.symm
      subst hdrEq
      rw [runLoop, dif_neg hb]
      simp only [Option.orElse, hpi]
      rw [if_pos (by rw [Frame.header_total]; exact hlt)]
      refine ⟨by first | rfl | trivial, by first | rfl | trivial,
        fun h h0 => ?_⟩
      cases h0
      exact hpi

/-- Running the loop on a buffer that is a prefix of a well-formed frame
stream consumes exactly the maximal complete-frame prefix, emits those
frames' packages in order, and leaves the strict remainder buffered with a
consistent carried header. -/
theorem runLoop_frames {V : Type} (munpack : List Nat → Option V) :
    ∀ (fs : List Frame), (∀ f ∈ fs, f.WF munpack) →
    ∀ (b t : List Nat), b ++ t = framesBytes fs →
    ∃ gs₁ gs₂ : List Frame, ∃ b' : List Nat,
      fs = gs₁ ++ gs₂ ∧
      framesBytes gs₁ ++ b' = b ∧
      b' ++ t = framesBytes gs₂ ∧
      midFrame b' gs₂ ∧
      (runLoop munpack b none).1 = gs₁.map (Frame.out munpack) ∧
      (runLoop munpack b none).2.buffer = b' ∧
      pkgOk (runLoop munpack b none).2.package b' := by
  intro fs
  induction fs with
  | nil =>
    intro _ b t hbt
    simp only [framesBytes, List.map_nil, List.flatten_nil] at hbt
    obtain ⟨hb, ht⟩ := List.append_eq_nil.mp hbt
    subst hb
    subst ht
    refine ⟨[], [], [], ?_, ?_, ?_, ?_, ?_, ?_, ?_⟩
    · rfl
    · simp [framesBytes]
    · simp [framesBytes]
    · exact Or.inl ⟨rfl, rfl⟩
    · rw [runLoop_nil]
      rfl
    · rw [runLoop_nil]
    · rw [runLoop_nil]
      exact fun h h0 => Option.noConfusion h0
  | cons g gs ih =>
    intro hwf b t hbt
    have hwfg : g.WF munpack := hwf g (List.mem_cons_self g gs)
    by_cases hlt : b.length < (Frame.bytes g).length
    · have hbtake : b = (Frame.bytes g).take b.length := by
        have h1 : b = (b ++ t).take b.length := by simp
        rw [hbt, framesBytes_cons,
          List.take_append_of_le_length (le_of_lt hlt)] at h1
        exact h1
      have hu : b ++ (Frame.bytes g).drop b.length = Frame.bytes g := by
        have h2 := List.take_append_drop b.length (Frame.bytes g)
        rw [← hbtake] at h2
        exact h2
      obtain ⟨ho, hbuf, hpk⟩ := runLoop_stuck hwfg hu hlt
      refine ⟨[], g :: gs, b, rfl, by simp [framesBytes], hbt,
        Or.inr ⟨g, gs, rfl, hlt, _, hu⟩, by simpa using ho, hbuf, hpk⟩
    · push_neg at hlt
      have h1 : b.take (Frame.bytes g).length = Frame.bytes g := by
        have h2 := congrArg (List.take (Frame.bytes g).length) hbt
        rw [List.take_append_of_le_length hlt, framesBytes_cons,
          List.take_left] at h2
        exact h2
      have hsplit : Frame.bytes g ++ b.drop (Frame.bytes g).length = b := by
        conv_rhs => rw [← List.take_append_drop (Frame.bytes g).length b]
        rw [h1]
      have hb₂t : b.drop (Frame.bytes g).length ++ t = framesBytes gs := by
        have h3 : Frame.bytes g ++ (b.drop (Frame.bytes g).length ++ t) =
            Frame.bytes g ++ framesBytes gs := by
          rw [← List.append_assoc, hsplit, hbt, framesBytes_cons]
        exact List.append_cancel_left h3
      have hrun : runLoop munpack b none =
          ((g.out munpack) :: (runLoop munpack
              (b.drop (Frame.bytes g).length) none).1,
            (runLoop munpack (b.drop (Frame.bytes g).length) none).2) := by
        conv_lhs => rw [← hsplit]
        exact runLoop_frame hwfg (b.drop (Frame.bytes g).length)
      obtain ⟨gs₁, gs₂, b', hfs, hgb, hbt', hmid, ho, hbuf, hpk⟩ :=
        ih (fun f hf => hwf f (List.mem_cons_of_mem g hf))
          (b.drop (Frame.bytes g).length) t hb₂t
      refine ⟨g :: gs₁, gs₂, b', by rw [hfs]; rfl, ?_, hbt', hmid, ?_, ?_, ?_⟩
      · rw [framesBytes_cons, List.append_assoc, hgb]
        exact hsplit
      · rw [hrun, List.map_cons, ho]
      · rw [hrun]
        exact hbuf
      · rw [hrun]
        exact hpk

/-- Delivering chunks that jointly cover a well-formed frame stream, from a
consistent mid-frame state, hands over exactly the remaining frames'
packages and empties the buffer. -/
theorem processChunks_frames {V : Type} (munpack : List Nat → Option V) :
    ∀ (chunks : List (List Nat)) (gs : List Frame) (st : ParseState V),
      (∀ f ∈ gs, f.WF munpack) →
      pkgOk st.package st.buffer →
      midFrame st.buffer gs →
      st.buffer ++ chunks.flatten = framesBytes gs →
      (processChunks munpack st chunks).1 = gs.map (Frame.out munpack) ∧
      (processChunks munpack st chunks).2.buffer = [] := by
  intro chunks
  induction chunks with
  | nil =>
    intro gs st _ _ hmid hcat
    rw [List.flatten_nil, List.append_nil] at hcat
    rcases hmid with ⟨hgs, hb⟩ | ⟨g, gs', hgs, hlt, u, hu⟩
    · subst hgs
      exact ⟨by simp [processChunks], by simp [processChunks, hb]⟩
    · exfalso
      subst hgs
      have := congrArg List.length hcat
      rw [framesBytes_cons, List.length_append] at this
      omega
  | cons c cs ih =>
    intro gs st hwf hq hmid hcat
    have hred : dataReceived munpack st c =
        runLoop munpack (st.buffer ++ c) none := by
      unfold dataReceived
      exact runLoop_pkgOk munpack (st.buffer ++ c) st.package (pkgOk_append hq c)
    have hbt : (st.buffer ++ c) ++ cs.flatten = framesBytes gs := by
      rw [List.append_assoc]
      rw [List.flatten_cons] at hcat
      rw [← List.append_assoc] at hcat
      rw [List.append_assoc] at hcat
      exact hcat
    obtain ⟨gs₁, gs₂, b', hfs, hgb, hbt', hmid', ho, hbuf, hpk⟩ :=
      runLoop_frames munpack gs hwf (st.buffer ++ c) cs.flatten hbt
    have hihq : pkgOk (runLoop munpack (st.buffer ++ c) none).2.package
        (runLoop munpack (st.buffer ++ c) none).2.buffer := by
      rw [hbuf]
      exact hpk
    have hihmid : midFrame (runLoop munpack (st.buffer ++ c) none).2.buffer gs₂ := by
      rw [hbuf]
      exact hmid'
    have hihcat : (runLoop munpack (st.buffer ++ c) none).2.buffer ++
        cs.flatten = framesBytes gs₂ := by
      rw [hbuf]
      exact hbt'
    obtain ⟨iho, ihb⟩ := ih gs₂ (runLoop munpack (st.buffer ++ c) none).2
      (fun f hf => hwf f (by rw [hfs]; exact List.mem_append_right gs₁ hf))
      hihq hihmid hihcat
    constructor
    · show (dataReceived munpack st c).1 ++
        (processChunks munpack (dataReceived munpack st c).2 cs).1 = _
      rw [hred, ho, iho, hfs, List.map_append]
    · show (processChunks munpack (dataReceived munpack st c).2 cs).2.buffer = []
      rw [hred]
      exact ihb

theorem midFrame_nil_left (fs : List Frame) : midFrame [] fs := by
  cases fs with
  | nil => exact Or.inl ⟨rfl, rfl⟩
  | cons g gs =>
    refine Or.inr ⟨g, gs, rfl, ?_, ⟨Frame.bytes g, by simp⟩⟩
    rw [Frame.bytes_length]
    simp

/-- Claim C4: the incremental TCP stream parser is chunking-invariant.  For
every stream that is a concatenation of well-formed frames (an 8-byte
header followed by `length` payload bytes that decode successfully) and
every way of splitting that stream into chunks delivered to
`data_received`, the sequence of packages handed to `_handle_package` is
exactly the stream's frames in order — the same as parsing the whole stream
in one call — and the buffer is left empty (each frame is consumed only
once fully buffered, and exactly `total = 8 + length` bytes are dropped per
frame, which is what `runLoop` does by construction). -/
theorem c4_chunking_invariant (V : Type) (munpack : List Nat → Option V)
    (fs : List Frame) (hwf : ∀ f ∈ fs, f.WF munpack)
    (chunks : List (List Nat)) (hsplit : chunks.flatten = framesBytes fs) :
    (processChunks munpack (parseInit V) chunks).1 =
      fs.map (Frame.out munpack) ∧
    (processChunks munpack (parseInit V) chunks).2.buffer = [] ∧
    (processChunks munpack (parseInit V) chunks).1 =
      (dataReceived munpack (parseInit V) (framesBytes fs)).1 := by
  have h1 := processChunks_frames munpack chunks fs (parseInit V) hwf
    (fun h h0 => Option.noConfusion h0) (midFrame_nil_left fs)
    (by simpa [parseInit] using hsplit)
  have h2 := processChunks_frames munpack [framesBytes fs] fs (parseInit V) hwf
    (fun h h0 => Option.noConfusion h0) (midFrame_nil_left fs)
    (by simp [parseInit])
  have h3 : (processChunks munpack (parseInit V) [framesBytes fs]).1 =
      (dataReceived munpack (parseInit V) (framesBytes fs)).1 := by
    show (dataReceived munpack (parseInit V) (framesBytes fs)).1 ++
      (processChunks munpack _ []).1 = _
    simp [processChunks]
  exact ⟨h1.1, h1.2, by rw [h1.1, ← h2.1, h3]⟩

/-- Witness for C4: two frames (a 1-byte payload and an empty payload),
delivered in three chunks that split both frames mid-header and mid-payload,
with a concrete decoder. -/
theorem c4_chunking_invariant_witness :
    ((∀ f ∈ [Frame.mk 1 0x12 237 [5], Frame.mk 2 0x11 238 []],
        f.WF (fun b : List Nat => some b.length)) ∧
      ([[1, 0, 0], [0, 1, 0, 0x12, 237, 5, 0, 0], [0, 0, 2, 0, 0x11, 238]] :
        List (List Nat)).flatten =
        framesBytes [Frame.mk 1 0x12 237 [5], Frame.mk 2 0x11 238 []]) ∧
    ((processChunks (fun b : List Nat => some b.length) (parseInit Nat)
        [[1, 0, 0], [0, 1, 0, 0x12, 237, 5, 0, 0], [0, 0, 2, 0, 0x11, 238]]).1 =
      [Frame.mk 1 0x12 237 [5], Frame.mk 2 0x11 238 []].map
        (Frame.out (fun b : List Nat => some b.length)) ∧
      (processChunks (fun b : List Nat => some b.length) (parseInit Nat)
        [[1, 0, 0], [0, 1, 0, 0x12, 237, 5, 0, 0], [0, 0, 2, 0, 0x11, 238]]).2.buffer
        = [] ∧
      (processChunks (fun b : List Nat => some b.length) (parseInit Nat)
        [[1, 0, 0], [0, 1, 0, 0x12, 237, 5, 0, 0], [0, 0, 2, 0, 0x11, 238]]).1 =
      (dataReceived (fun b : List Nat => some b.length) (parseInit Nat)
        (framesBytes [Frame.mk 1 0x12 237 [5], Frame.mk 2 0x11 238 []])).1) :=
  ⟨⟨by decide, by decide⟩,
   c4_chunking_invariant Nat (fun b => some b.length)
     [Frame.mk 1 0x12 237 [5], Frame.mk 2 0x11 238 []] (by decide)
     [[1, 0, 0], [0, 1, 0, 0x12, 237, 5, 0, 0], [0, 0, 2, 0, 0x11, 238]]
     (by decide)⟩

/-- End-to-end inbound delivery (`Protocol.data_received` feeding
`_handle_package`): parse the received bytes and hand every extracted
package to the dispatcher. -/
def protocolDeliver {V : Type} (errCode : V → Int)
    (munpack : List Nat → Option V) (mux : MuxState V × List (PackageData V))
    (pst : ParseState V) (data : List Nat) :
    (MuxState V × List (PackageData V)) × ParseState V :=
  ((dataReceived munpack pst data).1.foldl (handlePackage errCode) mux,
   (dataReceived munpack pst data).2)

/-- Claim C1 counterexample: a state with one pending request (pid 1,
future 0) receives the 8-byte frame `length 0, pid 1, type RES_OK, check
0x00`; its check byte `0x00` differs from `type XOR 0xFF = 0xEE`, yet the
frame is not rejected: it is dispatched and completes the pending request's
future with `set_result(None)`. -/
theorem c1_counterexample :
    (0x00 : Nat) ≠ Nat.xor 0x11 0xff ∧
    ((protocolDeliver (fun _ : Nat => (0 : Int)) (fun _ => none)
        ((writeStep (muxInit Nat) false).1, []) (parseInit Nat)
        [0, 0, 0, 0, 1, 0, 0x11, 0x00]).1.1).completions =
      [(0, Outcome.value none)] := by
  constructor
  · decide
  · have hwf : Frame.WF (fun _ : List Nat => (none : Option Nat))
        ⟨1, 0x11, 0x00, []⟩ := by decide
    have hbytes : ([0, 0, 0, 0, 1, 0, 0x11, 0x00] : List Nat) =
        Frame.bytes ⟨1, 0x11, 0x00, []⟩ ++ [] := by decide
    have houts : (dataReceived (fun _ : List Nat => (none : Option Nat))
        (parseInit Nat) [0, 0, 0, 0, 1, 0, 0x11, 0x00]).1 =
        [⟨⟨0, 1, 0x11, 0x00⟩, none⟩] := by
      unfold dataReceived parseInit
      rw [List.nil_append, hbytes, runLoop_frame hwf, runLoop_nil]
      rfl
    unfold protocolDeliver
    rw [houts]
    decide

/-! ## Room first-join gating (`thingsdb/room/roombase.py`)

The segment of `RoomBase.join` after the room lock is released, together
with the `ON_ROOM_JOIN` handler (`_on_join` / `_on_first_join`), as a small
interleaving model: the scheduler picks steps, and a step whose guard is
not satisfied cannot run (it is a no-op). -/

/-- Truthiness of the `wait` argument (`if wait:` — `0` and `None` are
falsy). -/
def waitTruthy : Option Nat → Bool
  | none => false
  | some n => n != 0

structure JoinState where
  /-- The `ON_ROOM_JOIN` event has been dispatched to `_on_join`, which
  scheduled the `on_join` body (`_on_first_join` when a gate exists,
  `ensure_future(self.on_join())` otherwise). -/
  handlerSpawned : Bool
  /-- `on_join` has finished (`some false`) or raised (`some true`). -/
  onJoinDone : Option Bool
  /-- `fut.set_result(None)` has run on the first-join gate. -/
  gateSet : Bool
  /-- `join()` has returned to its caller. -/
  joinReturned : Bool
deriving DecidableEq, Repr

inductive JoinChoice where
  | dispatchJoinEv
  | runOnJoin (raised : Bool)
  | releaseGate
  | returnJoin
deriving DecidableEq, Repr

/-- One scheduler step.  `releaseGate` is the `finally: fut.set_result(None)`
of `_on_first_join`: it can only run after `await self.on_join()` has
finished or raised, and only the first-join path (truthy `wait`) created a
gate.  `returnJoin` is `await asyncio.wait_for(self._wait_join, wait)` (or
the immediate return when `wait` is falsy): with a truthy `wait` it can only
run once the gate is set. -/
def joinStep (wait : Option Nat) (st : JoinState) : JoinChoice → JoinState
  | .dispatchJoinEv => { st with handlerSpawned := true }
  | .runOnJoin raised =>
    if st.handlerSpawned = true ∧ st.onJoinDone = none then
      { st with onJoinDone := some raised }
    else st
  | .releaseGate =>
    if waitTruthy wait = true ∧ st.onJoinDone.isSome = true ∧
        st.gateSet = false then
      { st with gateSet := true }
    else st
  | .returnJoin =>
    if waitTruthy wait = true → st.gateSet = true then
      { st with joinReturned := true }
    else st

/-- The state right after `join` released the room lock: the room is
registered, `on_init` has run, the gate (if `wait` is truthy) is pending. -/
def joinInit : JoinState := ⟨false, none, false, false⟩

def joinRun (wait : Option Nat) (cs : List JoinChoice) : JoinState :=
  cs.foldl (joinStep wait) joinInit

def JoinInv (wait : Option Nat) (st : JoinState) : Prop :=
  (st.gateSet = true → st.onJoinDone.isSome = true) ∧
  (waitTruthy wait = true → st.joinReturned = true → st.gateSet = true)

theorem joinInv_step (wait : Option Nat) {st : JoinState}
    (h : JoinInv wait st) (c : JoinChoice) :
    JoinInv wait (joinStep wait st c) := by
  obtain ⟨h1, h2⟩ := h
  cases c with
  | dispatchJoinEv => exact ⟨h1, h2⟩
  | runOnJoin raised =>
    simp only [joinStep]
    split_ifs with hg
    · exact ⟨fun _ => rfl, h2⟩
    · exact ⟨h1, h2⟩
  | releaseGate =>
    simp only [joinStep]
    split_ifs with hg
    · exact ⟨fun _ => hg.2.1, fun hw _ => rfl⟩
    · exact ⟨h1, h2⟩
  | returnJoin =>
    simp only [joinStep]
    split_ifs with hg
    · exact ⟨h1, fun hw _ => hg hw⟩
    · exact ⟨h1, h2⟩

theorem joinInv_fold (wait : Option Nat) :
    ∀ (cs : List JoinChoice) (st : JoinState), JoinInv wait st →
      JoinInv wait (cs.foldl (joinStep wait) st) := by
  intro cs
  induction cs with
  | nil => exact fun st h => h
  | cons c t ih => exact fun st h => ih _ (joinInv_step wait h c)

theorem joinInv_run (wait : Option Nat) (cs : List JoinChoice) :
    JoinInv wait (joinRun wait cs) :=
  joinInv_fold wait cs joinInit
    ⟨fun h => Bool.noConfusion h, fun _ h => Bool.noConfusion h⟩

/-- Claim C6: with a truthy `wait`, `join` returns only after the first
`on_join` has finished or raised (first conjunct: in every interleaving, a
returned `join` implies `on_join` completed — the gate that unblocks it is
only released by the `finally` after `on_join`); the gate is released and
`join` returns normally even when `on_join` raises (second conjunct: a
complete interleaving with `raised = true`, the exception surfacing only in
the task, never through `join`); with `wait = 0`, `join` returns as soon as
the JOIN response is received, before `on_join` has even started (third
conjunct). -/
theorem c6_join_gate (wait : Option Nat) (cs : List JoinChoice) :
    (waitTruthy wait = true → (joinRun wait cs).joinReturned = true →
      (joinRun wait cs).onJoinDone.isSome = true) ∧
    joinRun (some 60) [.dispatchJoinEv, .runOnJoin true, .releaseGate,
      .returnJoin] = ⟨true, some true, true, true⟩ ∧
    ((joinRun (some 0) [.returnJoin]).joinReturned = true ∧
      (joinRun (some 0) [.returnJoin]).onJoinDone = none) := by
  refine ⟨?_, by decide, by decide, by decide⟩
  intro hw hr
  obtain ⟨h1, h2⟩ := joinInv_run wait cs
  exact h1 (h2 hw hr)

/-- Witness for C6 on a concrete full interleaving with truthy `wait`. -/
theorem c6_join_gate_witness :
    (waitTruthy (some 60) = true ∧
      (joinRun (some 60) [.dispatchJoinEv, .runOnJoin false, .releaseGate,
        .returnJoin]).joinReturned = true) ∧
    (joinRun (some 60) [.dispatchJoinEv, .runOnJoin false, .releaseGate,
      .returnJoin]).onJoinDone.isSome = true :=
  ⟨⟨by decide, by decide⟩,
   (c6_join_gate (some 60) [.dispatchJoinEv, .runOnJoin false, .releaseGate,
      .returnJoin]).1 (by decide) (by decide)⟩

/-! ## Room registry and stop callbacks (`Client._on_room`,
`RoomBase._on_stop`, `_ROOM_EVENT_MAP`) -/

def ON_ROOM_JOIN : Nat := 0x06
def ON_ROOM_LEAVE : Nat := 0x07
def ON_ROOM_EMIT : Nat := 0x08
def ON_ROOM_DELETE : Nat := 0x09

structure RoomsState where
  /-- `client._rooms`: room id ↦ room object (a numeric token). -/
  rooms : List (Nat × Nat)
  /-- Log of `on_leave`/`on_delete` invocations:
  `(room token, isDelete, id-still-registered-when-the-callback-runs)`. -/
  stopCalls : List (Nat × Bool × Bool)
  /-- Log of dispatched emits: `(room token, event)`. -/
  emitCalls : List (Nat × Nat)
  /-- Events logged and dropped by `Client._on_room` (unknown id). -/
  droppedEvs : List (Nat × Nat)
deriving DecidableEq, Repr

/-- `Client._on_room(room_id, pkg)` followed by `RoomBase._on_event` and
`_ROOM_EVENT_MAP`: an id not in `client._rooms` is logged and dropped;
`ON_ROOM_LEAVE` / `ON_ROOM_DELETE` run `_on_stop`, which first performs
`del self._client._rooms[self._id]` (a `KeyError` passes) and *then* calls
`on_leave` / `on_delete` — the recorded flag captures whether the id was
still registered at the moment the callback ran; `ON_ROOM_EMIT` dispatches
to the room's handler (`_emit_handler`). -/
def onRoomStep (st : RoomsState) (id tp ev : Nat) : RoomsState :=
  match alLookup st.rooms id with
  | none => { st with droppedEvs := st.droppedEvs ++ [(id, tp)] }
  | some room =>
    if tp = ON_ROOM_LEAVE ∨ tp = ON_ROOM_DELETE then
      { st with
        rooms := alErase st.rooms id,
        stopCalls := st.stopCalls ++
          [(room, tp == ON_ROOM_DELETE,
            (alLookup (alErase st.rooms id) id).isSome)] }
    else if tp = ON_ROOM_EMIT then
      { st with emitCalls := st.emitCalls ++ [(room, ev)] }
    else st

def roomsRun (st : RoomsState) (evs : List (Nat × Nat × Nat)) : RoomsState :=
  evs.foldl (fun s e => onRoomStep s e.1 e.2.1 e.2.2) st

theorem snd_not_mem_erase {l : List (Nat × Nat)}
    (hnd : (l.map Prod.snd).Nodup) {k v : Nat} (hl : alLookup l k = some v) :
    v ∉ (alErase l k).map Prod.snd := by
  intro hmem
  rw [List.mem_map] at hmem
  obtain ⟨e, he, hfe⟩ := hmem
  have hel : e ∈ l := mem_alErase he
  have hep : e.1 ≠ k := by
    have := List.of_mem_filter he
    simpa using this
  have hkl : (k, v) ∈ l := alLookup_some_mem hl
  have heq := List.inj_on_of_nodup_map hnd hel hkl (by simpa using hfe)
  exact hep (by rw [heq])

def RoomsInv (st : RoomsState) : Prop :=
  (st.rooms.map Prod.snd).Nodup ∧
  (st.stopCalls.map (fun c => c.1)).Nodup ∧
  (∀ c ∈ st.stopCalls, c.1 ∉ st.rooms.map Prod.snd) ∧
  (∀ c ∈ st.stopCalls, c.2.2 = false)

theorem roomsInv_step {st : RoomsState} (h : RoomsInv st) (id tp ev : Nat) :
    RoomsInv (onRoomStep st id tp ev) := by
  obtain ⟨h1, h2, h3, h4⟩ := h
  unfold onRoomStep
  cases hl : alLookup st.rooms id with
  | none => exact ⟨h1, h2, h3, h4⟩
  | some room =>
    have hroom : room ∈ st.rooms.map Prod.snd :=
      List.mem_map.mpr ⟨(id, room), alLookup_some_mem hl, rfl⟩
    by_cases hstop : tp = ON_ROOM_LEAVE ∨ tp = ON_ROOM_DELETE
    · simp only [if_pos hstop]
      have hsub : ((alErase st.rooms id).map Prod.snd).Sublist
          (st.rooms.map Prod.snd) := map_alErase_sublist _ _ _
      refine ⟨h1.sublist hsub, ?_, ?_, ?_⟩
      · rw [List.map_append]
        refine h2.append (by simp) ?_
        intro x hx
        rw [List.mem_map] at hx
        obtain ⟨c, hc, hcx⟩ := hx
        simp only [List.map_cons, List.map_nil, List.mem_singleton]
        intro hxe
        apply h3 c hc
        rw [hcx, hxe]
        exact hroom
      · intro c hc
        rw [List.mem_append] at hc
        rcases hc with hc | hc
        · exact fun hm => h3 c hc (hsub.mem hm)
        · simp only [List.mem_singleton] at hc
          subst hc
          exact snd_not_mem_erase h1 hl
      · intro c hc
        rw [List.mem_append] at hc
        rcases hc with hc | hc
        · exact h4 c hc
        · simp only [List.mem_singleton] at hc
          subst hc
          show (alLookup (alErase st.rooms id) id).isSome = false
          rw [alLookup_erase, if_pos rfl]
          rfl
    · simp only [if_neg hstop]
      by_cases hemit : tp = ON_ROOM_EMIT
      · simp only [if_pos hemit]
        exact ⟨h1, h2, h3, h4⟩
      · simp only [if_neg hemit]
        exact ⟨h1, h2, h3, h4⟩

theorem roomsInv_run {st : RoomsState} (h : RoomsInv st)
    (evs : List (Nat × Nat × Nat)) : RoomsInv (roomsRun st evs) := by
  induction evs generalizing st with
  | nil => exact h
  | cons e t ih => exact ih (roomsInv_step h e.1 e.2.1 e.2.2)

/-- Claim C7: starting from any registry in which each room object is
registered at most once, over any sequence of inbound room events:
(1) at most one stop callback (`on_leave` or `on_delete`) ever runs per
room; (2) every stop callback runs with its room id already removed from
the registry; (3) a room whose stop callback has run is no longer
registered; and (4) any room event arriving for an id with no registered
room is logged and dropped — the state changes only by recording the
dropped event, so nothing is dispatched. -/
theorem c7_room_stop (rooms0 : List (Nat × Nat))
    (hnd : (rooms0.map Prod.snd).Nodup) (evs : List (Nat × Nat × Nat)) :
    ((roomsRun ⟨rooms0, [], [], []⟩ evs).stopCalls.map (fun c => c.1)).Nodup ∧
    (∀ c ∈ (roomsRun ⟨rooms0, [], [], []⟩ evs).stopCalls, c.2.2 = false) ∧
    (∀ c ∈ (roomsRun ⟨rooms0, [], [], []⟩ evs).stopCalls,
      c.1 ∉ (roomsRun ⟨rooms0, [], [], []⟩ evs).rooms.map Prod.snd) ∧
    (∀ id tp ev,
      alLookup (roomsRun ⟨rooms0, [], [], []⟩ evs).rooms id = none →
      onRoomStep (roomsRun ⟨rooms0, [], [], []⟩ evs) id tp ev =
        { roomsRun ⟨rooms0, [], [], []⟩ evs with
          droppedEvs := (roomsRun ⟨rooms0, [], [], []⟩ evs).droppedEvs ++
            [(id, tp)] }) := by
  have hinv : RoomsInv (roomsRun ⟨rooms0, [], [], []⟩ evs) :=
    roomsInv_run ⟨hnd, by simp, by simp, by simp⟩ evs
  obtain ⟨h1, h2, h3, h4⟩ := hinv
  refine ⟨h2, h4, h3, ?_⟩
  intro id tp ev hnone
  unfold onRoomStep
  rw [hnone]

/-- Witness for C7: one registered room (id 7, token 100) receives a LEAVE
and then an EMIT; the callback runs deregistered and the emit is dropped. -/
theorem c7_room_stop_witness :
    (([(7, 100)] : List (Nat × Nat)).map Prod.snd).Nodup ∧
    ((roomsRun ⟨[(7, 100)], [], [], []⟩
        [(7, ON_ROOM_LEAVE, 0), (7, ON_ROOM_EMIT, 3)]).stopCalls.map
      (fun c => c.1)).Nodup ∧
    (∀ c ∈ (roomsRun ⟨[(7, 100)], [], [], []⟩
        [(7, ON_ROOM_LEAVE, 0), (7, ON_ROOM_EMIT, 3)]).stopCalls,
      c.2.2 = false) :=
  ⟨by decide,
   (c7_room_stop [(7, 100)] (by decide)
     [(7, ON_ROOM_LEAVE, 0), (7, ON_ROOM_EMIT, 3)]).1,
   (c7_room_stop [(7, 100)] (by decide)
     [(7, ON_ROOM_LEAVE, 0), (7, ON_ROOM_EMIT, 3)]).2.1⟩

/-! ## Reconnect backoff (`Client._reconnect_loop`, `Client._connect`) -/

def MAX_RECONNECT_WAIT_TIME : Nat := 60
def MAX_RECONNECT_TIMEOUT : Nat := 10

structure ReconLog where
  /-- The pool index read at the top of each iteration. -/
  idxUsed : List Nat
  /-- The `timeout` passed to `_connect` on each attempt. -/
  timeoutUsed : List Nat
  /-- The durations of the `asyncio.sleep(wait_time)` calls, in order. -/
  sleeps : List Nat
  /-- `self._pool_idx` when the loop exits (or so far). -/
  finalIdx : Nat
deriving DecidableEq, Repr

/-- `Client._reconnect_loop` driven by per-attempt outcomes (`true` means
the whole `try` block — `_connect`, ping, authenticate, rejoin — succeeded).
Each iteration reads `self._pool[self._pool_idx]` and calls `_connect`,
whose `finally` advances `self._pool_idx` by one modulo the pool length
whether or not the attempt succeeds; on success the loop breaks; on failure
it sleeps `wait_time`, then sets `wait_time = min(wait_time*2, 60)` and
`timeout = min(timeout+1, 10)`.  The loop enters with `wait_time = 1`,
`timeout = 2`. -/
def reconnectLoop (poolLen : Nat) : Nat → Nat → Nat → List Bool → ReconLog
  | _, _, idx, [] => ⟨[], [], [], idx⟩
  | waitTime, timeout, idx, ok :: rest =>
    if ok then ⟨[idx], [timeout], [], (idx + 1) % poolLen⟩
    else
      let r := reconnectLoop poolLen
        (min (waitTime * 2) MAX_RECONNECT_WAIT_TIME)
        (min (timeout + 1) MAX_RECONNECT_TIMEOUT)
        ((idx + 1) % poolLen) rest
      ⟨idx :: r.idxUsed, timeout :: r.timeoutUsed, waitTime :: r.sleeps,
        r.finalIdx⟩

theorem min_pow_double (j w : Nat) :
    min (2 ^ j * min (w * 2) 60) 60 = min (2 ^ (j + 1) * w) 60 := by
  have h1 : 1 ≤ 2 ^ j := Nat.one_le_two_pow
  by_cases hc : w * 2 ≤ 60
  · rw [min_eq_left hc]
    congr 1
    ring
  · push_neg at hc
    rw [min_eq_right (le_of_lt hc)]
    have hL : 60 ≤ 2 ^ j * 60 := Nat.le_mul_of_pos_left 60 (by omega)
    have hR : 60 ≤ 2 ^ (j + 1) * w := by
      have : w * 2 ≤ 2 ^ j * (w * 2) := Nat.le_mul_of_pos_left _ (by omega)
      have he : 2 ^ j * (w * 2) = 2 ^ (j + 1) * w := by ring
      omega
    rw [min_eq_right hL, min_eq_right hR]

theorem reconnectLoop_spec (poolLen : Nat) (hlen : 0 < poolLen) :
    ∀ (n w t i : Nat), w ≤ 60 → t ≤ 10 → i < poolLen →
    reconnectLoop poolLen w t i (List.replicate n false ++ [true]) =
      ⟨(List.range (n + 1)).map (fun j => (i + j) % poolLen),
       (List.range (n + 1)).map (fun j => min (t + j) 10),
       (List.range n).map (fun j => min (2 ^ j * w) 60),
       (i + (n + 1)) % poolLen⟩ := by
  intro n
  induction n with
  | zero =>
    intro w t i hw ht hi
    simp only [List.replicate, List.nil_append]
    simp only [reconnectLoop, if_true]
    rw [ReconLog.mk.injEq]
    refine ⟨?_, ?_, by simp, rfl⟩
    · simp only [Nat.zero_add, List.range_succ, List.range_zero,
        List.nil_append, List.map_cons, List.map_nil]
      rw [Nat.add_zero, Nat.mod_eq_of_lt hi]
    · simp only [Nat.zero_add, List.range_succ, List.range_zero,
        List.nil_append, List.map_cons, List.map_nil]
      rw [show min (t + 0) 10 = t from by omega]
  | succ m ih =>
    intro w t i hw ht hi
    rw [List.replicate_succ, List.cons_append]
    simp only [reconnectLoop, if_neg (Bool.false_ne_true)]
    rw [ih (min (w * 2) MAX_RECONNECT_WAIT_TIME)
      (min (t + 1) MAX_RECONNECT_TIMEOUT) ((i + 1) % poolLen)
      (min_le_right _ _) (min_le_right _ _) (Nat.mod_lt _ hlen)]
    rw [ReconLog.mk.injEq]
    refine ⟨?_, ?_, ?_, ?_⟩
    · conv_rhs => rw [List.range_succ_eq_map]
      rw [List.map_cons, List.map_map]
      congr 1
      · rw [Nat.add_zero, Nat.mod_eq_of_lt hi]
      · apply List.map_congr_left
        intro j hj
        show ((i + 1) % poolLen + j) % poolLen = (i + Nat.succ j) % poolLen
        rw [Nat.mod_add_mod]
        congr 1
        omega
    · conv_rhs => rw [List.range_succ_eq_map]
      rw [List.map_cons, List.map_map]
      congr 1
      · show t = min (t + 0) 10
        omega
      · apply List.map_congr_left
        intro j hj
        show min (min (t + 1) MAX_RECONNECT_TIMEOUT + j) 10 =
          min (t + Nat.succ j) 10
        show min (min (t + 1) 10 + j) 10 = min (t + Nat.succ j) 10
        omega
    · conv_rhs => rw [List.range_succ_eq_map]
      rw [List.map_cons, List.map_map]
      congr 1
      · show w = min (2 ^ 0 * w) 60
        simp [min_eq_left hw]
      · apply List.map_congr_left
        intro j hj
        show min (2 ^ j * min (w * 2) MAX_RECONNECT_WAIT_TIME) 60 =
          min (2 ^ Nat.succ j * w) 60
        show min (2 ^ j * min (w * 2) 60) 60 = min (2 ^ (j + 1) * w) 60
        exact min_pow_double j w
    · show ((i + 1) % poolLen + (m + 1)) % poolLen =
        (i + (m + 1 + 1)) % poolLen
      rw [Nat.mod_add_mod]
      congr 1
      omega

/-- Claim C9: starting the reconnect loop (with `wait_time = 1`,
`timeout = 2`) against `n` consecutive failures followed by a success: the
sleep after the `k`-th failure (`1 ≤ k ≤ n`) is `min(2^(k-1), 60)` seconds;
the connect timeout used for attempt `k+1` is `min(2+k, 10)` seconds; and
on every attempt `j` (success or failure) the pool index used is
`(i0 + j) mod poolLen` — it advances by exactly one per attempt, wrapping
modulo the pool length. -/
theorem c9_reconnect_backoff (poolLen i0 n k : Nat) (hlen : 0 < poolLen)
    (hi : i0 < poolLen) (hk : 1 ≤ k) (hkn : k ≤ n) :
    (reconnectLoop poolLen 1 2 i0
        (List.replicate n false ++ [true])).sleeps.get? (k - 1) =
      some (min (2 ^ (k - 1)) 60) ∧
    (reconnectLoop poolLen 1 2 i0
        (List.replicate n false ++ [true])).timeoutUsed.get? k =
      some (min (2 + k) 10) ∧
    (∀ j, j ≤ n →
      (reconnectLoop poolLen 1 2 i0
        (List.replicate n false ++ [true])).idxUsed.get? j =
      some ((i0 + j) % poolLen)) ∧
    (reconnectLoop poolLen 1 2 i0
        (List.replicate n false ++ [true])).finalIdx =
      (i0 + (n + 1)) % poolLen := by
  rw [reconnectLoop_spec poolLen hlen n 1 2 i0 (by omega) (by omega) hi]
  refine ⟨?_, ?_, ?_, rfl⟩
  · rw [List.get?_map, List.get?_range (by omega)]
    simp only [Option.map_some']
    rw [Nat.mul_one]
  · rw [List.get?_map, List.get?_range (by omega)]
    simp only [Option.map_some']
  · intro j hj
    rw [List.get?_map, List.get?_range (by omega)]
    rfl

/-- Witness for C9 at a 2-node pool, two failures then success, `k = 2`. -/
theorem c9_reconnect_backoff_witness :
    (0 < 2 ∧ 0 < 2 ∧ 1 ≤ 2 ∧ 2 ≤ 2) ∧
    ((reconnectLoop 2 1 2 0
        (List.replicate 2 false ++ [true])).sleeps.get? 1 =
      some (min (2 ^ 1) 60) ∧
    (reconnectLoop 2 1 2 0
        (List.replicate 2 false ++ [true])).timeoutUsed.get? 2 =
      some (min (2 + 2) 10) ∧
    (∀ j, j ≤ 2 →
      (reconnectLoop 2 1 2 0
        (List.replicate 2 false ++ [true])).idxUsed.get? j =
      some ((0 + j) % 2)) ∧
    (reconnectLoop 2 1 2 0
        (List.replicate 2 false ++ [true])).finalIdx = (0 + (2 + 1)) % 2) :=
  ⟨⟨by decide, by decide, by decide, by decide⟩,
   c9_reconnect_backoff 2 0 2 2 (by decide) (by decide) (by decide) (by decide)⟩

/-! ## Query building (`Client.query`) -/

/-- Python `str.isspace()` restricted to the Latin-1 code points: space,
tab, LF, VT, FF, CR, the file/group/record/unit separators 0x1c..0x1f,
NEL 0x85 and NBSP 0xa0.  `str.strip()` with no argument removes exactly
these characters from both ends. -/
def pyIsSpace (c : Char) : Bool :=
  c.toNat == 0x20 || c.toNat == 0x09 || c.toNat == 0x0a || c.toNat == 0x0b ||
  c.toNat == 0x0c || c.toNat == 0x0d || c.toNat == 0x1c || c.toNat == 0x1d ||
  c.toNat == 0x1e || c.toNat == 0x1f || c.toNat == 0x85 || c.toNat == 0xa0

/-- `code.strip()`: drop leading whitespace, then trailing whitespace. -/
def pyStrip (s : List Char) : List Char :=
  ((s.dropWhile pyIsSpace).reverse.dropWhile pyIsSpace).reverse

def REQ_QUERY : Nat := 0x22

/-- The request built by `Client.query`: `tp = Proto.REQ_QUERY`,
`data = [scope, code.strip()]`, with the kwargs map appended if and only
if it is non-empty (`if kwargs: data.append(kwargs)`); a `None` scope is
replaced by the client default scope. -/
structure QueryRequest (W : Type) where
  tp : Nat
  scope : List Char
  code : List Char
  vars : Option (List (List Char × W))

def buildQuery (W : Type) (defaultScope : List Char)
    (scope : Option (List Char)) (code : List Char)
    (kwargs : List (List Char × W)) : QueryRequest W :=
  { tp := REQ_QUERY
    scope := scope.getD defaultScope
    code := pyStrip code
    vars := if kwargs.isEmpty then none else some kwargs }

theorem dropWhile_all_nil (p : Char → Bool) :
    ∀ (l : List Char), (∀ c ∈ l, p c) → List.dropWhile p l = []
  | [], _ => rfl
  | c :: l, h => by
    rw [List.dropWhile_cons, if_pos (h c (List.mem_cons_self c l))]
    exact dropWhile_all_nil p l (fun x hx => h x (List.mem_cons_of_mem c hx))

theorem all_of_dropWhile_nil (p : Char → Bool) :
    ∀ (l : List Char), List.dropWhile p l = [] → ∀ c ∈ l, p c
  | [], _, c, hc => absurd hc (List.not_mem_nil c)
  | a :: l, h, c, hc => by
    rw [List.dropWhile_cons] at h
    by_cases ha : p a
    · rw [if_pos ha] at h
      rcases List.mem_cons.mp hc with hca | hcl
      · exact hca ▸ ha
      · exact all_of_dropWhile_nil p l h c hcl
    · rw [if_neg ha] at h
      exact absurd h (List.cons_ne_nil a l)

theorem dropWhile_append_all (p : Char → Bool) :
    ∀ (l₁ l₂ : List Char), (∀ c ∈ l₁, p c) →
      List.dropWhile p (l₁ ++ l₂) = List.dropWhile p l₂
  | [], _, _ => rfl
  | c :: l, l₂, h => by
    rw [List.cons_append, List.dropWhile_cons,
      if_pos (h c (List.mem_cons_self c l))]
    exact dropWhile_append_all p l l₂
      (fun x hx => h x (List.mem_cons_of_mem c hx))

theorem dropWhile_append_pos (p : Char → Bool) :
    ∀ (l₁ l₂ : List Char), List.dropWhile p l₁ ≠ [] →
      List.dropWhile p (l₁ ++ l₂) = List.dropWhile p l₁ ++ l₂
  | [], _, h => absurd rfl h
  | c :: l, l₂, h => by
    by_cases hc : p c
    · rw [List.dropWhile_cons, if_pos hc] at h
      rw [List.cons_append, List.dropWhile_cons, if_pos hc,
        List.dropWhile_cons, if_pos hc]
      exact dropWhile_append_pos p l l₂ h
    · rw [List.cons_append, List.dropWhile_cons, if_neg hc,
        List.dropWhile_cons, if_neg hc, List.cons_append]

theorem pyStrip_append_left (w y : List Char) (h : ∀ c ∈ w, pyIsSpace c) :
    pyStrip (w ++ y) = pyStrip y := by
  unfold pyStrip
  rw [dropWhile_append_all pyIsSpace w y h]

theorem pyStrip_append_right (y w : List Char) (h : ∀ c ∈ w, pyIsSpace c) :
    pyStrip (y ++ w) = pyStrip y := by
  unfold pyStrip
  by_cases hy : List.dropWhile pyIsSpace y = []
  · rw [hy, dropWhile_append_all pyIsSpace y w
      (all_of_dropWhile_nil pyIsSpace y hy), dropWhile_all_nil pyIsSpace w h]
  · rw [dropWhile_append_pos pyIsSpace y w hy, List.reverse_append,
      dropWhile_append_all pyIsSpace w.reverse
        (List.dropWhile pyIsSpace y).reverse
        (fun c hc => h c (List.mem_reverse.mp hc))]

/-- Claim C10: `Client.query` strips leading and trailing whitespace from
the code before building the request body: the built request for code
`w₁ ++ x ++ w₂`, with `w₁`, `w₂` all whitespace, is identical to the one
for `x`; the transmitted code is exactly `code.strip()`; the request type
is `REQ_QUERY`; and the kwargs map rides along if and only if keyword
variables were given. -/
theorem c10_query_strip (W : Type) (defaultScope : List Char)
    (scope : Option (List Char)) (x w₁ w₂ : List Char)
    (kwargs : List (List Char × W))
    (h1 : ∀ c ∈ w₁, pyIsSpace c) (h2 : ∀ c ∈ w₂, pyIsSpace c) :
    buildQuery W defaultScope scope (w₁ ++ x ++ w₂) kwargs =
      buildQuery W defaultScope scope x kwargs ∧
    (buildQuery W defaultScope scope x kwargs).code = pyStrip x ∧
    (buildQuery W defaultScope scope x kwargs).tp = REQ_QUERY ∧
    ((buildQuery W defaultScope scope x kwargs).vars = none ↔
      kwargs = []) := by
  refine ⟨?_, rfl, rfl, ?_⟩
  · unfold buildQuery
    rw [List.append_assoc, pyStrip_append_left w₁ (x ++ w₂) h1,
      pyStrip_append_right x w₂ h2]
  · cases kwargs with
    | nil => simp [buildQuery]
    | cons a l => simp [buildQuery]

/-- Witness for C10: surrounding `".x"` with a space, a newline and a tab
does not change the built request. -/
theorem c10_query_strip_witness :
    ((∀ c ∈ ([' ', '\n'] : List Char), pyIsSpace c) ∧
      (∀ c ∈ (['\t'] : List Char), pyIsSpace c)) ∧
    (buildQuery Nat ['/', 't'] none
        ([' ', '\n'] ++ ['.', 'x'] ++ ['\t']) [] =
      buildQuery Nat ['/', 't'] none ['.', 'x'] [] ∧
    (buildQuery Nat ['/', 't'] none ['.', 'x'] []).code =
      pyStrip ['.', 'x'] ∧
    (buildQuery Nat ['/', 't'] none ['.', 'x'] []).tp = REQ_QUERY ∧
    ((buildQuery Nat ['/', 't'] none ['.', 'x'] []).vars = none ↔
      ([] : List (List Char × Nat)) = [])) :=
  ⟨⟨by decide, by decide⟩,
   c10_query_strip Nat ['/', 't'] none ['.', 'x'] [' ', '\n'] ['\t'] []
     (by decide) (by decide)⟩

end ThingsDB
